import Mathlib

/-!
Verification development for the Zyzzyva word-engine core
(`src/src/libzyzzyva/WordEngine.cpp`).

The C++ code is shallowly embedded: the engine's runtime collaborators that
live outside `WordEngine.cpp` (the word graph, the SQLite attribute store,
the letter bag, the `Auxil` helpers) are passed in as explicit data in an
`Env` record, and the mutable word cache is threaded as explicit state.
Qt-container behaviour that the code relies on is modelled directly:
`QMap` is a key-sorted association list whose `insert` replaces the value
at an existing key and whose `keys()`/`values()` iterate in ascending key
order; `QStringList` is `List String`; `QString` comparison is
code-unit-wise lexicographic comparison, modelled on `List Char`.
-/

namespace Zyzzyva

/-! ## Characters and strings -/

/-- Uppercasing of a single ASCII character, as `QString::toUpper` acts on
the ASCII words the engine stores. -/
def charUpper (c : Char) : Char :=
  if 'a' ≤ c ∧ c ≤ 'z' then Char.ofNat (c.toNat - 32) else c

/-- `QString::toUpper` on a word. -/
def strUpper (s : String) : String :=
  ⟨s.data.map charUpper⟩

/-- Whitespace as `QChar::isSpace` sees it in word-list lines. -/
def isWS (c : Char) : Bool :=
  c = ' ' || c = '\t' || c = '\n' || c = '\r'

/-- Helper for `tokensOf`: scan the characters once, building the current
token in reverse in the accumulator. -/
def tokensAux : List Char → List Char → List (List Char)
  | [], cur => if cur = [] then [] else [cur.reverse]
  | c :: rest, cur =>
    if isWS c then
      if cur = [] then tokensAux rest [] else cur.reverse :: tokensAux rest []
    else tokensAux rest (c :: cur)

/-- Whitespace-delimited tokens of a line (used to model
`QString::simplified` together with `QString::section (' ', i, j)`). -/
def tokensOf (l : List Char) : List (List Char) :=
  tokensAux l []

/-- `QString::simplified`: trim and collapse runs of whitespace to single
spaces. -/
def simplified (s : String) : String :=
  ⟨List.intercalate [' '] (tokensOf s.data)⟩

/-- `line.section (' ', 0, 0)`: the text before the first space — on a
simplified line, its first token (empty when the line has none). -/
def firstToken (s : String) : String :=
  ⟨s.data.takeWhile fun c => !(c = ' ')⟩

/-- Insertion of a character into a sorted character list (helper for the
alphagram). -/
def insortChar (c : Char) : List Char → List Char
  | [] => [c]
  | d :: rest => if c ≤ d then c :: d :: rest else d :: insortChar c rest

/-- Sorting the characters of a word into ascending order. -/
def sortChars : List Char → List Char
  | [] => []
  | c :: rest => insortChar c (sortChars rest)

/-- Modelled from the spec: `Auxil::getAlphagram` (`Auxil.cpp` is not under
`src/`); the spec's glossary defines the alphagram as the canonical
sorted-letter form of a word. -/
def getAlphagram (w : String) : String :=
  ⟨sortChars w.data⟩

/-- Strict lexicographic comparison of character lists: `QString::operator<`
(code-unit-wise comparison) on the words and radix strings the engine
compares. -/
def lexLt : List Char → List Char → Bool
  | [], [] => false
  | [], _ :: _ => true
  | _ :: _, [] => false
  | a :: as, b :: bs => if a < b then true else if b < a then false else lexLt as bs

/-! ## The 9-digit probability radix

`applyPostConditions` renders `1e9 - 1 - numCombinations` with
`sprintf ("%09.0f", …)`: a zero-padded, fixed-width, 9-digit decimal
numeral. `padDigits k n` is the `k`-digit zero-padded numeral of `n`. -/

def padDigits : Nat → Nat → List Char
  | 0, _ => []
  | k + 1, n => Char.ofNat (48 + n / 10 ^ k % 10) :: padDigits k (n % 10 ^ k)

/-- The `"%09.0f"` rendering used for the probability radix. -/
def pad9 (n : Nat) : List Char :=
  padDigits 9 n

/-! ## The search-condition model

`SearchCondition` (declared in a header that is not under `src/`; the
fields below are the ones `WordEngine.cpp` reads): a tagged condition kind
with numeric bounds, a string operand, a boolean (lax/strict) flag, a
negation flag and a legacy-ordering flag. -/

inductive CondType where
  | Length
  | InWordList
  | NumVowels
  | IncludeLetters
  | ProbabilityOrder
  | NumUniqueLetters
  | PointValue
  | NumAnagrams
  | AnagramMatch
  | PatternMatch
  | SubanagramMatch
  | ConsistOf
  | BelongToGroup
  | Prefix
  | Suffix
  | LimitByProbabilityOrder
  | UnknownType
  deriving DecidableEq, Repr

structure SearchCondition where
  type : CondType
  minValue : Int := 0
  maxValue : Int := 0
  stringValue : String := ""
  boolValue : Bool := false
  negated : Bool := false
  legacy : Bool := false
  deriving DecidableEq, Repr

structure SearchSpec where
  conditions : List SearchCondition
  conjunction : Bool := true
  deriving DecidableEq, Repr

/-- One row of the `words` relation of the attribute store (the columns
`WordEngine.cpp` queries). -/
structure DbRow where
  word : String
  length : Int := 0
  probability_order : Int := 0
  min_probability_order : Int := 0
  max_probability_order : Int := 0
  num_vowels : Int := 0
  num_unique_letters : Int := 0
  num_anagrams : Int := 0
  point_value : Int := 0
  front_hooks : String := ""
  back_hooks : String := ""
  definition : String := ""
  deriving DecidableEq, Repr

/-- `WordEngine::WordInfo`, the per-word cached attribute snapshot. -/
structure WordInfo where
  word : String := ""
  probabilityOrder : Int := 0
  minProbabilityOrder : Int := 0
  maxProbabilityOrder : Int := 0
  numVowels : Int := 0
  numUniqueLetters : Int := 0
  numAnagrams : Int := 0
  pointValue : Int := 0
  frontHooks : String := ""
  backHooks : String := ""
  definition : String := ""
  deriving DecidableEq, Repr

instance : Inhabited WordInfo := ⟨{}⟩

def rowInfo (r : DbRow) : WordInfo :=
  { word := r.word
    probabilityOrder := r.probability_order
    minProbabilityOrder := r.min_probability_order
    maxProbabilityOrder := r.max_probability_order
    numVowels := r.num_vowels
    numUniqueLetters := r.num_unique_letters
    numAnagrams := r.num_anagrams
    pointValue := r.point_value
    frontHooks := r.front_hooks
    backHooks := r.back_hooks
    definition := r.definition }

/-- The engine's collaborators, passed explicitly.

* `graphSearch` is `WordGraph::search` on the already-optimized spec
  (the word graph lives in `WordGraph.cpp`, outside `WordEngine.cpp`).
* `graphContains` is `WordGraph::containsWord`, the body of
  `WordEngine::isAcceptable`.
* `setMember` combines `Auxil::stringToSearchSet` with
  `WordEngine::isSetMember`: `none` models `UnknownSearchSet` (the
  condition is skipped), `some b` the membership answer. `Auxil.cpp` is
  not under `src/`, so the set decoding cannot be pinned further.
* `numCombinations` is `LetterBag::getNumCombinations` (`LetterBag.cpp`
  is not under `src/`); the count is modelled as a natural number, the
  value `sprintf ("%09.0f", …)` renders.
* `db` is the attribute store: `none` when the database was never
  connected (`db.isOpen()` false), `some rows` the rows of the `words`
  relation. -/
structure Env where
  graphSearch : SearchSpec → List String
  graphContains : String → Bool
  setMember : String → String → Option Bool
  numCombinations : String → Nat
  db : Option (List DbRow)

/-! ## `WordEngine::databaseSearch`

The function builds one SQL `WHERE` clause: the conjunction of one
predicate per attribute-store condition, plus — when a word list is
passed — `word IN (…)` over the uppercased candidates.  It is modelled as
a filter of the `words` relation by that conjunction; a query against a
database that was never opened returns no rows. -/

/-- The predicate one search condition contributes to the `WHERE` clause
(conditions of other kinds contribute nothing, i.e. `true`). -/
def dbCondPred (c : SearchCondition) (r : DbRow) : Bool :=
  match c.type with
  | .ProbabilityOrder =>
    if c.boolValue then
      decide (r.max_probability_order ≥ c.minValue) &&
        decide (r.min_probability_order ≤ c.maxValue)
    else if c.minValue = c.maxValue then
      decide (r.probability_order = c.minValue)
    else
      decide (r.probability_order ≥ c.minValue) &&
        decide (r.probability_order ≤ c.maxValue)
  | .Length =>
    if c.minValue = c.maxValue then decide (r.length = c.minValue)
    else decide (r.length ≥ c.minValue) && decide (r.length ≤ c.maxValue)
  | .NumVowels =>
    if c.minValue = c.maxValue then decide (r.num_vowels = c.minValue)
    else decide (r.num_vowels ≥ c.minValue) && decide (r.num_vowels ≤ c.maxValue)
  | .NumUniqueLetters =>
    if c.minValue = c.maxValue then decide (r.num_unique_letters = c.minValue)
    else decide (r.num_unique_letters ≥ c.minValue) &&
      decide (r.num_unique_letters ≤ c.maxValue)
  | .PointValue =>
    if c.minValue = c.maxValue then decide (r.point_value = c.minValue)
    else decide (r.point_value ≥ c.minValue) && decide (r.point_value ≤ c.maxValue)
  | .NumAnagrams =>
    if c.minValue = c.maxValue then decide (r.num_anagrams = c.minValue)
    else decide (r.num_anagrams ≥ c.minValue) && decide (r.num_anagrams ≤ c.maxValue)
  | .IncludeLetters =>
    -- `word [NOT] LIKE '%c%'` per character; SQLite `LIKE` is
    -- ASCII-case-insensitive, hence the uppercasing on both sides.
    c.stringValue.data.all fun ch =>
      if c.negated then !((strUpper r.word).data.contains (charUpper ch))
      else (strUpper r.word).data.contains (charUpper ch)
  | .InWordList =>
    let ws := c.stringValue.split (fun ch => ch = ' ')
    if c.negated then !(ws.contains r.word) else ws.contains r.word
  | _ => true

/-- Association-list update with `QMap::operator[]` semantics: a later
insert for the same key replaces the earlier value. -/
def assocUpsert (m : List (String × String)) (k v : String) : List (String × String) :=
  match m with
  | [] => [(k, v)]
  | (k1, v1) :: rest => if k1 = k then (k, v) :: rest else (k1, v1) :: assocUpsert rest k v

def assocLookup (m : List (String × String)) (k : String) : Option String :=
  match m with
  | [] => none
  | (k1, v1) :: rest => if k1 = k then some v1 else assocLookup rest k

/-- The `upperToLower` map built over the optional candidate word list. -/
def upperToLowerOf (ws : List String) : List (String × String) :=
  ws.foldl (fun m w => assocUpsert m (strUpper w) w) []

def databaseSearch (env : Env) (optimizedSpec : SearchSpec)
    (wordList : Option (List String)) : List String :=
  match env.db with
  | none => []
  | some rows =>
    let sel := rows.filter fun r =>
      (optimizedSpec.conditions.all fun c => dbCondPred c r) &&
        (match wordList with
         | none => true
         | some ws => (ws.map strUpper).contains r.word)
    sel.map fun r =>
      match wordList with
      | none => r.word
      | some ws => (assocLookup (upperToLowerOf ws) r.word).getD r.word

/-! ## `WordEngine::matchesConditions` -/

def matchesConditions (env : Env) (word : String)
    (conditions : List SearchCondition) : Bool :=
  let wordUpper := strUpper word
  conditions.all fun c =>
    match c.type with
    | .Prefix => !(xor (!(env.graphContains (c.stringValue ++ wordUpper))) c.negated)
    | .Suffix => !(xor (!(env.graphContains (wordUpper ++ c.stringValue))) c.negated)
    | .BelongToGroup =>
      match env.setMember wordUpper c.stringValue with
      | none => true
      | some m => !(xor (!m) c.negated)
    | _ => true

/-! ## The probability-order radix map

`applyPostConditions` keys a `QMap<QString, QString>` by the radix string
`sprintf ("%09.0f", 1e9 - 1 - combinations) ++ alphagram? ++ wordUpper` and
reads the map's keys and values back in ascending key order. -/

/-- The radix string (as a character list) under which a surviving word is
inserted into the probability map. -/
def radixOf (env : Env) (legacy : Bool) (word : String) : List Char :=
  let wordUpper := strUpper word
  pad9 (10 ^ 9 - 1 - env.numCombinations wordUpper) ++
    (if legacy then [] else (getAlphagram wordUpper).data) ++ wordUpper.data

/-- The complement value the radix's first nine characters encode. -/
def radixC (env : Env) (w : String) : Nat :=
  10 ^ 9 - 1 - env.numCombinations (strUpper w)

/-- The part of the radix after the nine numeral characters. -/
def radixSuffix (leg : Bool) (w : String) : List Char :=
  (if leg then [] else (getAlphagram (strUpper w)).data) ++ (strUpper w).data

/-- `QMap::insert`: keep the association list sorted by key (ascending in
`lexLt`), replacing the value at an equal key. -/
def mapInsert (k : List Char) (v : String) :
    List (List Char × String) → List (List Char × String)
  | [] => [(k, v)]
  | (k1, v1) :: rest =>
    if k = k1 then (k, v) :: rest
    else if lexLt k k1 then (k, v) :: (k1, v1) :: rest
    else (k1, v1) :: mapInsert k v rest

/-- The probability map over the surviving word list. -/
def probMapOf (env : Env) (legacy : Bool) (words : List String) :
    List (List Char × String) :=
  words.foldl (fun m w => mapInsert (radixOf env legacy w) w m) []

/-- The accumulator of the scan over `LimitByProbabilityOrder` conditions
(`probLimitRangeCondition`, the four range variables and the legacy flag in
`applyPostConditions`). -/
structure ProbLimitAcc where
  present : Bool := false
  rmin : Int := 0
  rmax : Int := 999999
  rminLax : Int := 0
  rmaxLax : Int := 999999
  legacy : Bool := false
  deriving Repr

def probLimitStep (acc : ProbLimitAcc) (c : SearchCondition) : ProbLimitAcc :=
  if c.type = .LimitByProbabilityOrder then
    { present := true
      rmin := if c.boolValue then acc.rmin
              else if c.minValue > acc.rmin then c.minValue else acc.rmin
      rmax := if c.boolValue then acc.rmax
              else if c.maxValue < acc.rmax then c.maxValue else acc.rmax
      rminLax := if c.boolValue then
                   (if c.minValue > acc.rminLax then c.minValue else acc.rminLax)
                 else acc.rminLax
      rmaxLax := if c.boolValue then
                   (if c.maxValue < acc.rmaxLax then c.maxValue else acc.rmaxLax)
                 else acc.rmaxLax
      legacy := acc.legacy || c.legacy }
  else acc

def probLimitScan (conditions : List SearchCondition) : ProbLimitAcc :=
  conditions.foldl probLimitStep {}

/-- The first `while` loop: widen `min` downward, toward `lo`
(`probLimitRangeMin`), while the previous key still carries the 9-character
combination prefix `pfx` taken at the original `min`. -/
def widenMin (keys : List (List Char)) (lo : Int) (pfx : List Char) : Nat → Nat
  | 0 => 0
  | m + 1 =>
    if ((m : Int) + 1 > lo) ∧ (keys.getD m []).take 9 = pfx then
      widenMin keys lo pfx m
    else m + 1

/-- The second `while` loop, fuelled by the list length: widen `max`
upward, below `hi` (`probLimitRangeMax`), while the next key still carries
the prefix `pfx` taken at the original `max`. -/
def widenMaxGo (keys : List (List Char)) (hi : Int) (pfx : List Char) :
    Nat → Nat → Nat
  | 0, mx => mx
  | fuel + 1, mx =>
    if (mx + 1 < keys.length) ∧ ((mx : Int) < hi) ∧
        (keys.getD (mx + 1) []).take 9 = pfx then
      widenMaxGo keys hi pfx fuel (mx + 1)
    else mx

def widenMax (keys : List (List Char)) (hi : Int) (pfx : List Char) (mx : Nat) : Nat :=
  widenMaxGo keys hi pfx keys.length mx

/-- `QList::mid (pos, len)`: when `len` is negative or overruns the list,
everything from `pos` on is taken. -/
def listMid (l : List String) (pos len : Int) : List String :=
  let size : Int := l.length
  let len2 := if len < 0 ∨ pos + len > size then size - pos else len
  (l.drop pos.toNat).take len2.toNat

def applyPostConditions (env : Env) (optimizedSpec : SearchSpec)
    (wordList : List String) : List String :=
  let returnList := wordList.filter fun w =>
    matchesConditions env w optimizedSpec.conditions
  let st := probLimitScan optimizedSpec.conditions
  if st.present then
    if st.rmin > (returnList.length : Int) ∨ st.rminLax > (returnList.length : Int) then
      []
    else
      -- Convert from 1-based to 0-based offset, then clamp.
      let size : Int := returnList.length
      let rmin := st.rmin - 1
      let rmax := st.rmax - 1
      let rminLax := st.rminLax - 1
      let rmaxLax := st.rmaxLax - 1
      let rmin := if rmin < 0 then 0 else rmin
      let rminLax := if rminLax < 0 then 0 else rminLax
      let rmax := if rmax > size - 1 then size - 1 else rmax
      let rmaxLax := if rmaxLax > size - 1 then size - 1 else rmaxLax
      let min0 := if rmin > rminLax then rmin else rminLax
      let max0 := if rmax < rmaxLax then rmax else rmaxLax
      let pm := probMapOf env st.legacy returnList
      let keys := pm.map Prod.fst
      let minPfx := (keys.getD min0.toNat []).take 9
      let maxPfx := (keys.getD max0.toNat []).take 9
      let minW := widenMin keys rmin minPfx min0.toNat
      let maxW := widenMax keys rmax maxPfx max0.toNat
      listMid (pm.map Prod.snd) (minW : Int) ((maxW : Int) - (minW : Int) + 1)
  else returnList

/-! ## Condition classification in `WordEngine::search`

The `switch` over condition types in `search` increments one counter per
bucket; the single pass is modelled as one `countP` per bucket. -/

def isPostCond (t : CondType) : Bool :=
  match t with
  | .BelongToGroup | .Prefix | .Suffix | .LimitByProbabilityOrder => true
  | _ => false

def isWordGraphCond (t : CondType) : Bool :=
  match t with
  | .AnagramMatch | .PatternMatch | .SubanagramMatch | .ConsistOf => true
  | _ => false

def isDatabaseCond (t : CondType) : Bool :=
  match t with
  | .Length | .InWordList | .NumVowels | .IncludeLetters | .ProbabilityOrder
  | .NumUniqueLetters | .PointValue | .NumAnagrams => true
  | _ => false

def countPost (conds : List SearchCondition) : Nat :=
  conds.countP fun c => isPostCond c.type

def countWordGraph (conds : List SearchCondition) : Nat :=
  conds.countP fun c => isWordGraphCond c.type

def countDatabase (conds : List SearchCondition) : Nat :=
  conds.countP fun c => isDatabaseCond c.type

def countLength (conds : List SearchCondition) : Nat :=
  conds.countP fun c => c.type = CondType.Length

/-- `wildcardConditions` in `search` (counted but never read afterwards). -/
def countWildcard (conds : List SearchCondition) : Nat :=
  conds.countP fun c =>
    (c.type = CondType.AnagramMatch || c.type = CondType.PatternMatch) &&
      c.stringValue.data.contains '*'

/-- `nonWildcardConditions` in `search` (counted but never read afterwards). -/
def countNonWildcard (conds : List SearchCondition) : Nat :=
  conds.countP fun c =>
    (c.type = CondType.AnagramMatch || c.type = CondType.PatternMatch) &&
      !(c.stringValue.data.contains '*')

/-- The correction in `search`: do not count Length conditions that were
only added by `SearchSpec::optimize` — when a word-graph condition is
present and every database condition is a Length condition, one database
condition is discounted. -/
def adjustedDbConds (conds : List SearchCondition) : Nat :=
  if 0 < countWordGraph conds ∧ 1 ≤ countDatabase conds ∧
      countLength conds = countDatabase conds then
    countDatabase conds - 1
  else countDatabase conds

/-! ## `SearchSpec::optimize` -/

/-- The fixed length a word-graph condition pins down: an `AnagramMatch` or
`PatternMatch` operand without the `*` wildcard matches words of exactly
its own length. -/
def fixedLengthOf (conds : List SearchCondition) : Option Int :=
  conds.findSome? fun c =>
    if (c.type = CondType.AnagramMatch ∨ c.type = CondType.PatternMatch) ∧
        !(c.stringValue.data.contains '*') then
      some (c.stringValue.length : Int)
    else none

/-- Modelled from the spec: `SearchSpec::optimize` (`SearchSpec.cpp` is not
under `src/`).  The spec (§4.3) describes it as a pure rewrite that may
only ADD conditions, its example being a Length bound inferred from a
fixed-length pattern so the attribute store can use an indexed column; the
added condition is injected only when no Length condition is already
present, keeping the rewrite idempotent. -/
def optimizeModel (spec : SearchSpec) : SearchSpec :=
  match fixedLengthOf spec.conditions with
  | none => spec
  | some n =>
    if spec.conditions.any (fun c => c.type = CondType.Length) then spec
    else
      { spec with
          conditions := spec.conditions ++
            [{ type := CondType.Length, minValue := n, maxValue := n }] }

/-! ## The word cache -/

/-- `wordCache`, a `QMap<QString, WordInfo>` threaded as explicit state. -/
def Cache := List (String × WordInfo)
  deriving DecidableEq

def cacheUpsert (m : Cache) (k : String) (v : WordInfo) : Cache :=
  match m with
  | [] => [(k, v)]
  | (k1, v1) :: rest => if k1 = k then (k, v) :: rest else (k1, v1) :: cacheUpsert rest k v

def cacheLookup (m : Cache) (k : String) : Option WordInfo :=
  match m with
  | [] => none
  | (k1, v1) :: rest => if k1 = k then some v1 else cacheLookup rest k

/-- `WordEngine::addToCache`: bulk-load the rows for the result words.
Nothing happens for an empty word list or a never-connected database. -/
def addToCache (env : Env) (cache : Cache) (words : List String) : Cache :=
  if words = [] ∨ env.db = none then cache
  else
    match env.db with
    | none => cache
    | some rows =>
      (rows.filter fun r => words.contains r.word).foldl
        (fun m r => cacheUpsert m r.word (rowInfo r)) cache

/-- `WordEngine::getWordInfo`: serve from the cache, else from the
database; fail (an invalid, empty `WordInfo`) when the word is cached
nowhere and the database is not open. -/
def getWordInfo (env : Env) (cache : Cache) (word : String) : WordInfo :=
  if word = "" then {}
  else
    match cacheLookup cache word with
    | some info => info
    | none =>
      match env.db with
      | none => {}
      | some rows =>
        match rows.find? (fun r => r.word = word) with
        | some r => rowInfo r
        | none => {}

/-! ## `WordEngine::search`

The body after `optimizedSpec.optimize()`: classify, correct the database
count, run the word-graph stage (short-circuiting on empty), the database
stage (short-circuiting on empty), the post-condition stage, case
normalization, and the clear-then-repopulate of the cache for a non-empty
result. -/

/-- The word-graph stage of `search`: run when a word-graph condition is
present or no database condition remains. -/
def searchStage1 (env : Env) (optimizedSpec : SearchSpec) : List String :=
  if 0 < countWordGraph optimizedSpec.conditions ∨
      adjustedDbConds optimizedSpec.conditions = 0 then
    env.graphSearch optimizedSpec
  else []

/-- The database stage of `search`: run when database conditions remain,
constrained to the word-graph results when that stage ran on conditions. -/
def searchStage2 (env : Env) (optimizedSpec : SearchSpec) : List String :=
  if adjustedDbConds optimizedSpec.conditions ≠ 0 then
    databaseSearch env optimizedSpec
      (if 0 < countWordGraph optimizedSpec.conditions then
        some (searchStage1 env optimizedSpec)
       else none)
  else searchStage1 env optimizedSpec

/-- The words that survive the word-graph and database stages and the
per-word post-filter conditions — the set `LimitByProbabilityOrder` then
windows. -/
def survivorsOf (env : Env) (optimizedSpec : SearchSpec) : List String :=
  (searchStage2 env optimizedSpec).filter fun w =>
    matchesConditions env w optimizedSpec.conditions

def searchOpt (env : Env) (cache : Cache) (optimizedSpec : SearchSpec)
    (allCaps : Bool) : List String × Cache :=
  let conds := optimizedSpec.conditions
  let r1 := searchStage1 env optimizedSpec
  if (0 < countWordGraph conds ∨ adjustedDbConds conds = 0) ∧ r1 = [] then
    ([], cache)
  else
    let r2 := searchStage2 env optimizedSpec
    if adjustedDbConds conds ≠ 0 ∧ r2 = [] then ([], cache)
    else
      let r3 := if 0 < countPost conds then applyPostConditions env optimizedSpec r2 else r2
      let r4 := if allCaps then r3.map strUpper else r3
      if r4 = [] then (r4, cache) else (r4, addToCache env [] r4)

def search (env : Env) (cache : Cache) (spec : SearchSpec) (allCaps : Bool) :
    List String × Cache :=
  searchOpt env cache (optimizeModel spec) allCaps

/-! ## `WordEngine::importStems`

The file is a list of lines; opening the file is outside the model.  A
`std::set<QString>` is a key-sorted duplicate-free list. -/

def setInsert (x : String) : List String → List String
  | [] => [x]
  | y :: rest =>
    if x = y then y :: rest
    else if lexLt x.data y.data then x :: y :: rest
    else y :: setInsert x rest

/-- The loop state of `importStems`: collected words, their alphagram set,
the imported count, and the length pinned by the file's first valid entry
(`0` while none was seen). -/
structure StemAcc where
  words : List String := []
  alphas : List String := []
  imported : Nat := 0
  length : Nat := 0
  deriving DecidableEq, Repr

def stemLine (acc : StemAcc) (line : String) : StemAcc :=
  let l := simplified line
  if l.data = [] ∨ l.data.headD ' ' = '#' then acc
  else
    let word := firstToken l
    let len := if acc.length = 0 then word.length else acc.length
    if word.length ≠ len then { acc with length := len }
    else
      { words := acc.words ++ [word]
        alphas := setInsert (getAlphagram word) acc.alphas
        imported := acc.imported + 1
        length := len }

/-- The `stems` and `stemAlphagrams` maps of the engine. -/
structure StemMaps where
  stems : List (Nat × List String) := []
  stemAlphagrams : List (Nat × List String) := []
  deriving DecidableEq, Repr

def natAssocFind (m : List (Nat × List String)) (k : Nat) : Option (List String) :=
  match m with
  | [] => none
  | (k1, v1) :: rest => if k1 = k then some v1 else natAssocFind rest k

def natAssocSet (m : List (Nat × List String)) (k : Nat) (v : List String) :
    List (Nat × List String) :=
  match m with
  | [] => [(k, v)]
  | (k1, v1) :: rest => if k1 = k then (k, v) :: rest else (k1, v1) :: natAssocSet rest k v

def importStems (st : StemMaps) (lines : List String) : StemMaps × Nat :=
  let acc := lines.foldl stemLine {}
  match natAssocFind st.stems acc.length with
  | none =>
    ({ stems := st.stems ++ [(acc.length, acc.words)]
       stemAlphagrams := st.stemAlphagrams ++ [(acc.length, acc.alphas)] },
     acc.imported)
  | some ws =>
    let alphas0 := (natAssocFind st.stemAlphagrams acc.length).getD []
    ({ stems := natAssocSet st.stems acc.length (ws ++ acc.words)
       stemAlphagrams := natAssocSet st.stemAlphagrams acc.length
         (acc.alphas.foldl (fun s a => setInsert a s) alphas0) },
     acc.imported)

/-! ## `WordEngine::replaceDefinitionLinks`

`QRegExp ("\\{(\\w+)=(\\w+)\\}")` and `QRegExp ("\\<(\\w+)=(\\w+)\\>")`:
since `=` and the closing bracket are not word characters, the first match
of either pattern is found by scanning left to right for the opening
bracket followed by a maximal nonempty run of word characters, `=`,
another such run, and the closing bracket.  `getSubDefinition` reads the
definition data (database or the in-memory multimap), passed here as the
function `subDef`. -/

def isWordChar (c : Char) : Bool :=
  c.isAlpha || c.isDigit || c = '_'

/-- Match one marker at the head of `l`: the word, the part of speech, and
the matched length. -/
def tryMatch (op cl : Char) (l : List Char) : Option (List Char × List Char × Nat) :=
  match l with
  | [] => none
  | c :: rest =>
    if c = op then
      let w := rest.takeWhile isWordChar
      match rest.drop w.length with
      | '=' :: rest2 =>
        let p := rest2.takeWhile isWordChar
        match rest2.drop p.length with
        | c2 :: _ =>
          if c2 = cl ∧ w ≠ [] ∧ p ≠ [] then some (w, p, w.length + p.length + 3)
          else none
        | [] => none
      | _ => none
    else none

/-- `QRegExp::indexIn` for one marker pattern: the first index at which it
matches, with the two captures and the matched length. -/
def findMarker (op cl : Char) : List Char → Option (Nat × List Char × List Char × Nat)
  | [] => none
  | c :: rest =>
    match tryMatch op cl (c :: rest) with
    | some (w, p, len) => some (0, w, p, len)
    | none => (findMarker op cl rest).map fun x => (x.1 + 1, x.2)

/-- The match order of `replaceDefinitionLinks`: the follow marker
(braces) is tried first anywhere in the string; only when it matches
nowhere is the replace marker (angle brackets) tried.  Returns the form,
index, word, part of speech and matched length. -/
def findFirstMarker (l : List Char) :
    Option (Bool × Nat × List Char × List Char × Nat) :=
  match findMarker '\x7b' '\x7d' l with
  | some (i, w, p, len) => some (true, i, w, p, len)
  | none =>
    match findMarker '<' '>' l with
    | some (i, w, p, len) => some (false, i, w, p, len)
    | none => none

/-- `QString::replace (index, matchedLength, replacement)`. -/
def splice (l : List Char) (i len : Nat) (repl : List Char) : List Char :=
  l.take i ++ repl ++ l.drop (i + len)

/-- The replacement text for a matched marker. -/
def mkReplacement (subDef : String → String → String)
    (isFollowForm useFollow : Bool) (maxDepth : Nat) (w p : List Char) :
    List Char :=
  if maxDepth = 0 then w
  else
    let upper := strUpper ⟨w⟩
    let sd := subDef upper ⟨p⟩
    if sd = "" then (if useFollow then w else upper.data)
    else if useFollow then
      if isFollowForm then w ++ (' ' :: '(' :: sd.data) ++ [')'] else sd.data
    else upper.data ++ (',' :: ' ' :: (subDef upper ⟨p⟩).data)

def replaceDefinitionLinks (subDef : String → String → String) (maxDepth : Nat)
    (definition : String) (useFollow : Bool) : String :=
  match findFirstMarker definition.data with
  | none => definition
  | some (isF, i, w, p, len) =>
    let uf := useFollow || isF
    let repl := mkReplacement subDef isF uf maxDepth w p
    let modified : String := ⟨splice definition.data i len repl⟩
    match maxDepth with
    | 0 => modified
    | d + 1 => replaceDefinitionLinks subDef d modified uf

/-- The number of substitution passes `replaceDefinitionLinks` performs
(one per call in the recursion, including the final pass that leaves the
text unchanged when no marker remains). -/
def linkPasses (subDef : String → String → String) (maxDepth : Nat)
    (definition : String) (useFollow : Bool) : Nat :=
  match findFirstMarker definition.data with
  | none => 1
  | some (isF, i, w, p, len) =>
    let uf := useFollow || isF
    let repl := mkReplacement subDef isF uf maxDepth w p
    let modified : String := ⟨splice definition.data i len repl⟩
    match maxDepth with
    | 0 => 1
    | d + 1 => 1 + linkPasses subDef d modified uf

/-- `replaceDefinitionLinks` with the `useFollow` flag held `true`
throughout: every substitution uses the follow-style formatting. -/
def replaceDefinitionLinksF (subDef : String → String → String) (maxDepth : Nat)
    (definition : String) : String :=
  match findFirstMarker definition.data with
  | none => definition
  | some (isF, i, w, p, len) =>
    let repl := mkReplacement subDef isF true maxDepth w p
    let modified : String := ⟨splice definition.data i len repl⟩
    match maxDepth with
    | 0 => modified
    | d + 1 => replaceDefinitionLinksF subDef d modified

/-! ## Statement-side definitions

Definitions below are used only to state properties: predicates written
from the spec's words (for comparison against the code-derived functions
above) and small concrete environments for explicit evaluations. -/

/-- The numeric columns of the `words` relation, by condition kind. -/
def columnOf : CondType → DbRow → Int
  | .Length => DbRow.length
  | .NumVowels => DbRow.num_vowels
  | .NumUniqueLetters => DbRow.num_unique_letters
  | .PointValue => DbRow.point_value
  | .NumAnagrams => DbRow.num_anagrams
  | .ProbabilityOrder => DbRow.probability_order
  | _ => fun _ => 0

/-- The condition kinds the equality-collapse rule speaks about: the five
plain numeric columns, and `ProbabilityOrder` with strict boundaries. -/
def isNumericRangeCond (c : SearchCondition) : Bool :=
  match c.type with
  | .Length | .NumVowels | .NumUniqueLetters | .PointValue | .NumAnagrams => true
  | .ProbabilityOrder => !c.boolValue
  | _ => false

/-- The open-range selection of the claim's words: rows with
`column ≥ k AND column ≤ k`. -/
def rangeSelect (col : DbRow → Int) (k : Int) (rows : List DbRow) : List DbRow :=
  rows.filter fun r => decide (col r ≥ k) && decide (col r ≤ k)

/-- The composite ranking relation as the claim words it: combination
count descending, then — unless legacy — alphagram ascending then word
ascending; in legacy mode the word alone. -/
def claimRankLt (env : Env) (leg : Bool) (w1 w2 : String) : Prop :=
  env.numCombinations (strUpper w2) < env.numCombinations (strUpper w1) ∨
    (env.numCombinations (strUpper w1) = env.numCombinations (strUpper w2) ∧
      (if leg then lexLt (strUpper w1).data (strUpper w2).data = true
       else
         lexLt (getAlphagram (strUpper w1)).data (getAlphagram (strUpper w2)).data = true ∨
           (getAlphagram (strUpper w1) = getAlphagram (strUpper w2) ∧
             lexLt (strUpper w1).data (strUpper w2).data = true)))

/-- The ranking relation the code actually sorts by: combination count
descending, then the concatenation `alphagram ++ word` (or the word alone
in legacy mode) ascending. -/
def codeRankLt (env : Env) (leg : Bool) (w1 w2 : String) : Prop :=
  env.numCombinations (strUpper w2) < env.numCombinations (strUpper w1) ∨
    (env.numCombinations (strUpper w1) = env.numCombinations (strUpper w2) ∧
      lexLt (radixSuffix leg w1) (radixSuffix leg w2) = true)

/-- Whether a stem-file line is neither empty nor a comment after
simplification. -/
def stemLineValid (line : String) : Bool :=
  !(simplified line).data.isEmpty && !((simplified line).data.headD ' ' = '#')

/-- The first whitespace-delimited token of a stem-file line. -/
def stemToken (line : String) : String :=
  firstToken (simplified line)

/-- The tokens of the valid lines whose token length is `L`, in file
order. -/
def acceptedTokens (L : Nat) (lines : List String) : List String :=
  lines.filterMap fun line =>
    if stemLineValid line ∧ (stemToken line).length = L then some (stemToken line)
    else none

/-- The token length of the file's first valid entry (`0` when the file
has none). -/
def firstValidLen (lines : List String) : Nat :=
  ((lines.find? fun line => stemLineValid line).map
    fun line => (stemToken line).length).getD 0

/-- A small environment: the word graph answers `CARE`, the attribute
store was never connected, every word draws in five ways. -/
def envA : Env :=
  { graphSearch := fun _ => ["CARE"]
    graphContains := fun w => w == "CARE" || w == "RACE"
    setMember := fun _ _ => none
    numCombinations := fun _ => 5
    db := none }

/-- One concrete attribute-store row. -/
def rowCARE : DbRow :=
  { word := "CARE", length := 4, num_vowels := 2, point_value := 6 }

/-- Like `envA` but with the attribute store connected and holding the
single row for `CARE`. -/
def envB : Env :=
  { graphSearch := fun _ => ["CARE"]
    graphContains := fun w => w == "CARE" || w == "RACE"
    setMember := fun _ _ => none
    numCombinations := fun _ => 5
    db := some [rowCARE] }

def specPattern : SearchSpec :=
  { conditions := [{ type := CondType.PatternMatch, stringValue := "CARE" }] }

def specPatternVowels : SearchSpec :=
  { conditions := [{ type := CondType.PatternMatch, stringValue := "CARE" },
                   { type := CondType.NumVowels, minValue := 1, maxValue := 2 }] }

def specLimitStrict11 : SearchSpec :=
  { conditions := [{ type := CondType.LimitByProbabilityOrder,
                     minValue := 1, maxValue := 1 }] }

def specLimitLax11 : SearchSpec :=
  { conditions := [{ type := CondType.LimitByProbabilityOrder,
                     minValue := 1, maxValue := 1, boolValue := true }] }

def specLimitLax12 : SearchSpec :=
  { conditions := [{ type := CondType.LimitByProbabilityOrder,
                     minValue := 1, maxValue := 2, boolValue := true }] }

def specPatternLimit5 : SearchSpec :=
  { conditions := [{ type := CondType.PatternMatch, stringValue := "CARE" },
                   { type := CondType.LimitByProbabilityOrder,
                     minValue := 5, maxValue := 7 }] }

/-- A definition-data function with a self-referencing marker: every
sub-definition mentions the word itself again, so expansion is cyclic. -/
def cyclicSubDef : String → String → String :=
  fun w _ => "see \x7b" ++ w ++ "=n\x7d here"

/-! ## Lemmas about lexicographic comparison -/

theorem lexLt_irrefl (l : List Char) : lexLt l l = false := by
  induction l with
  | nil => rfl
  | cons c rest ih => simp [lexLt, ih]

theorem lexLt_asymm : ∀ {a b : List Char}, lexLt a b = true → lexLt b a = false
  | [], [], h => by simp [lexLt] at h
  | [], _ :: _, _ => rfl
  | _ :: _, [], h => by simp [lexLt] at h
  | a :: as, b :: bs, h => by
    simp only [lexLt] at h ⊢
    rcases lt_trichotomy a b with hab | hab | hab
    · simp [hab, not_lt_of_lt hab]
    · subst hab
      simp only [lt_irrefl, if_false] at h ⊢
      exact lexLt_asymm h
    · simp [hab, not_lt_of_lt hab] at h

theorem lexLt_trans : ∀ {a b c : List Char},
    lexLt a b = true → lexLt b c = true → lexLt a c = true
  | [], _, _ :: _, _, _ => rfl
  | [], b, [], _, h2 => by cases b <;> simp [lexLt] at h2
  | _ :: _, b, [], h1, h2 => by
    cases b with
    | nil => simp [lexLt] at h1
    | cons d ds => simp [lexLt] at h2
  | a :: as, b :: bs, c :: cs, h1, h2 => by
    simp only [lexLt] at h1 h2 ⊢
    rcases lt_trichotomy a b with hab | hab | hab
    · rcases lt_trichotomy b c with hbc | hbc | hbc
      · simp [lt_trans hab hbc]
      · subst hbc; simp [hab]
      · simp [hbc, not_lt_of_lt hbc] at h2
    · subst hab
      rcases lt_trichotomy a c with hac | hac | hac
      · simp [hac]
      · subst hac
        simp only [lt_irrefl, if_false] at h1 h2 ⊢
        exact lexLt_trans h1 h2
      · simp [hac, not_lt_of_lt hac] at h2
    · simp [hab, not_lt_of_lt hab] at h1

theorem lexLt_connex : ∀ {a b : List Char},
    a ≠ b → lexLt a b = true ∨ lexLt b a = true
  | [], [], h => absurd rfl h
  | [], _ :: _, _ => Or.inl rfl
  | _ :: _, [], _ => Or.inr rfl
  | a :: as, b :: bs, h => by
    simp only [lexLt]
    rcases lt_trichotomy a b with hab | hab | hab
    · exact Or.inl (by simp [hab])
    · subst hab
      have hne : as ≠ bs := fun he => h (by rw [he])
      simp only [lt_irrefl, if_false]
      exact lexLt_connex hne
    · exact Or.inr (by simp [hab])

/-- Comparing two lists that start with equal-length blocks: the blocks
decide unless they are equal. -/
theorem lexLt_append_block : ∀ {xs ys : List Char}, xs.length = ys.length →
    ∀ (s t : List Char),
    lexLt (xs ++ s) (ys ++ t) = if xs = ys then lexLt s t else lexLt xs ys
  | [], [], _, s, t => by simp
  | [], _ :: _, h, _, _ => by simp at h
  | _ :: _, [], h, _, _ => by simp at h
  | x :: xs, y :: ys, h, s, t => by
    simp only [List.length_cons, Nat.succ.injEq] at h
    simp only [List.cons_append, lexLt]
    rcases lt_trichotomy x y with hxy | hxy | hxy
    · simp [hxy, ne_of_lt hxy]
    · subst hxy
      simp only [lt_irrefl, if_false]
      rw [show xs.append s = xs ++ s from rfl, show ys.append t = ys ++ t from rfl,
        lexLt_append_block h s t]
      by_cases he : xs = ys <;> simp [he]
    · have : ¬ (x :: xs = y :: ys) := by simp [ne_of_gt hxy]
      simp [hxy, not_lt_of_lt hxy, this]

/-- A strict comparison restricted to a common prefix length is either
still strict or degenerates to equality. -/
theorem lexLt_take (n : Nat) : ∀ {a b : List Char}, lexLt a b = true →
    lexLt (a.take n) (b.take n) = true ∨ a.take n = b.take n := by
  induction n with
  | zero => intro a b _; simp
  | succ n ih =>
    intro a b hab
    match a, b with
    | [], [] => simp [lexLt] at hab
    | [], c :: cs => simp [lexLt]
    | c :: cs, [] => simp [lexLt] at hab
    | c :: cs, d :: ds =>
      simp only [lexLt] at hab
      simp only [List.take_succ_cons, lexLt]
      rcases lt_trichotomy c d with hcd | hcd | hcd
      · simp [hcd]
      · subst hcd
        simp only [lt_irrefl, if_false] at hab ⊢
        rcases ih hab with h | h
        · exact Or.inl h
        · exact Or.inr (by rw [h])
      · simp [hcd, not_lt_of_lt hcd] at hab

/-! ## Lemmas about the zero-padded numeral -/

theorem padDigits_length (k : Nat) : ∀ n, (padDigits k n).length = k := by
  induction k with
  | zero => intro n; rfl
  | succ k ih => intro n; simp [padDigits, ih]

theorem digitChar_lt_iff :
    ∀ d1 < 10, ∀ d2 < 10,
      (Char.ofNat (48 + d1) < Char.ofNat (48 + d2) ↔ d1 < d2) := by
  decide

theorem digitChar_congr :
    ∀ d1 < 10, ∀ d2 < 10,
      (Char.ofNat (48 + d1) = Char.ofNat (48 + d2) ↔ d1 = d2) := by
  decide

theorem padDigits_lt_iff (k : Nat) : ∀ {m n : Nat}, m < 10 ^ k → n < 10 ^ k →
    (lexLt (padDigits k m) (padDigits k n) = true ↔ m < n) := by
  induction k with
  | zero =>
    intro m n hm hn
    simp only [pow_zero, Nat.lt_one_iff] at hm hn
    subst hm; subst hn
    simp [padDigits, lexLt]
  | succ k ih =>
    intro m n hm hn
    have hpow : 0 < 10 ^ k := Nat.pos_pow_of_pos k (by norm_num)
    have hpow1 : 10 ^ (k + 1) = 10 ^ k * 10 := by ring
    have hq1 : m / 10 ^ k < 10 := by
      rw [Nat.div_lt_iff_lt_mul hpow]
      omega
    have hq2 : n / 10 ^ k < 10 := by
      rw [Nat.div_lt_iff_lt_mul hpow]
      omega
    have e1 : m / 10 ^ k % 10 = m / 10 ^ k := Nat.mod_eq_of_lt hq1
    have e2 : n / 10 ^ k % 10 = n / 10 ^ k := Nat.mod_eq_of_lt hq2
    have hm2 : m % 10 ^ k < 10 ^ k := Nat.mod_lt _ hpow
    have hn2 : n % 10 ^ k < 10 ^ k := Nat.mod_lt _ hpow
    have hdm := Nat.div_add_mod m (10 ^ k)
    have hdn := Nat.div_add_mod n (10 ^ k)
    simp only [padDigits, lexLt, e1, e2]
    rcases lt_trichotomy (m / 10 ^ k) (n / 10 ^ k) with hq | hq | hq
    · have hc : Char.ofNat (48 + m / 10 ^ k) < Char.ofNat (48 + n / 10 ^ k) :=
        (digitChar_lt_iff _ hq1 _ hq2).2 hq
      simp only [hc, if_true, true_iff]
      exact Nat.lt_of_div_lt_div hq
    · have hc : Char.ofNat (48 + m / 10 ^ k) = Char.ofNat (48 + n / 10 ^ k) := by
        rw [hq]
      rw [hc]
      simp only [lt_irrefl, if_false]
      rw [ih hm2 hn2]
      have hXY : 10 ^ k * (m / 10 ^ k) = 10 ^ k * (n / 10 ^ k) := by rw [hq]
      omega
    · have hc : Char.ofNat (48 + n / 10 ^ k) < Char.ofNat (48 + m / 10 ^ k) :=
        (digitChar_lt_iff _ hq2 _ hq1).2 hq
      have hc2 : ¬ Char.ofNat (48 + m / 10 ^ k) < Char.ofNat (48 + n / 10 ^ k) := by
        intro hlt
        exact absurd ((digitChar_lt_iff _ hq1 _ hq2).1 hlt) (by omega)
      rw [if_neg hc2, if_pos hc]
      constructor
      · intro hfalse; exact absurd hfalse (by simp)
      · intro hmn
        exact absurd (Nat.lt_of_div_lt_div hq) (by omega)

theorem padDigits_inj (k : Nat) {m n : Nat} (hm : m < 10 ^ k) (hn : n < 10 ^ k)
    (h : padDigits k m = padDigits k n) : m = n := by
  by_contra hne
  rcases lt_or_gt_of_ne hne with hlt | hgt
  · have hx := (padDigits_lt_iff k hm hn).2 hlt
    rw [h, lexLt_irrefl] at hx
    exact Bool.false_ne_true hx
  · have hx := (padDigits_lt_iff k hn hm).2 hgt
    rw [h, lexLt_irrefl] at hx
    exact Bool.false_ne_true hx

theorem pad9_length (n : Nat) : (pad9 n).length = 9 :=
  padDigits_length 9 n

theorem pad9_lt_iff {m n : Nat} (hm : m < 10 ^ 9) (hn : n < 10 ^ 9) :
    (lexLt (pad9 m) (pad9 n) = true ↔ m < n) :=
  padDigits_lt_iff 9 hm hn

theorem pad9_inj {m n : Nat} (hm : m < 10 ^ 9) (hn : n < 10 ^ 9)
    (h : pad9 m = pad9 n) : m = n :=
  padDigits_inj 9 hm hn h

/-! ## Lemmas about the probability radix -/

theorem insortChar_length (c : Char) : ∀ l : List Char,
    (insortChar c l).length = l.length + 1 := by
  intro l
  induction l with
  | nil => rfl
  | cons d rest ih =>
    by_cases h : c ≤ d <;> simp [insortChar, h, ih]

theorem sortChars_length : ∀ l : List Char, (sortChars l).length = l.length := by
  intro l
  induction l with
  | nil => rfl
  | cons d rest ih => simp [sortChars, insortChar_length, ih]

theorem radixOf_decomp (env : Env) (leg : Bool) (w : String) :
    radixOf env leg w = pad9 (radixC env w) ++ radixSuffix leg w := rfl

theorem radixOf_take9 (env : Env) (leg : Bool) (w : String) :
    (radixOf env leg w).take 9 = pad9 (radixC env w) := by
  rw [radixOf_decomp]
  exact List.take_left' (pad9_length _)

theorem radixC_lt (env : Env) (w : String) : radixC env w < 10 ^ 9 := by
  have : (0 : Nat) < 10 ^ 9 := by norm_num
  unfold radixC
  omega

/-- Two radices compare exactly by combination count (descending), then by
the suffix. -/
theorem radixOf_lt_iff (env : Env) (leg : Bool) (w1 w2 : String)
    (h1 : env.numCombinations (strUpper w1) < 10 ^ 9)
    (h2 : env.numCombinations (strUpper w2) < 10 ^ 9) :
    (lexLt (radixOf env leg w1) (radixOf env leg w2) = true ↔
      env.numCombinations (strUpper w2) < env.numCombinations (strUpper w1) ∨
        (env.numCombinations (strUpper w1) = env.numCombinations (strUpper w2) ∧
          lexLt (radixSuffix leg w1) (radixSuffix leg w2) = true)) := by
  rw [radixOf_decomp, radixOf_decomp,
    lexLt_append_block (by rw [pad9_length, pad9_length])]
  by_cases he : pad9 (radixC env w1) = pad9 (radixC env w2)
  · have hc : radixC env w1 = radixC env w2 :=
      pad9_inj (radixC_lt env w1) (radixC_lt env w2) he
    have hcomb : env.numCombinations (strUpper w1) = env.numCombinations (strUpper w2) := by
      unfold radixC at hc
      omega
    simp [he, hcomb]
  · have hc : radixC env w1 ≠ radixC env w2 := fun hcc => he (by rw [hcc])
    have hcomb : env.numCombinations (strUpper w1) ≠ env.numCombinations (strUpper w2) := by
      intro hcc
      exact hc (by unfold radixC; omega)
    rw [if_neg he, pad9_lt_iff (radixC_lt env w1) (radixC_lt env w2)]
    unfold radixC
    constructor
    · intro h; left; omega
    · intro h
      rcases h with h | ⟨h, _⟩
      · omega
      · exact absurd h hcomb

/-! ## Lemmas about the sorted map -/

/-- The `QMap` invariant: keys strictly ascending. -/
def KeysSorted (m : List (List Char × String)) : Prop :=
  m.Pairwise (fun a b => lexLt a.1 b.1 = true)

theorem mapInsert_self (k : List Char) (v : String) :
    ∀ m : List (List Char × String), (k, v) ∈ mapInsert k v m
  | [] => by simp [mapInsert]
  | (k1, v1) :: rest => by
    by_cases he : k = k1
    · simp [mapInsert, he]
    · by_cases hlt : lexLt k k1 = true
      · simp [mapInsert, he, hlt]
      · simp only [mapInsert, if_neg he, if_neg hlt, List.mem_cons]
        exact Or.inr (mapInsert_self k v rest)

theorem mapInsert_mem_weak (k : List Char) (v : String) :
    ∀ (m : List (List Char × String)) (e : List Char × String),
      e ∈ mapInsert k v m → e = (k, v) ∨ e ∈ m
  | [], e, h => by simpa [mapInsert] using h
  | (k1, v1) :: rest, e, h => by
    by_cases he : k = k1
    · rw [mapInsert, if_pos he] at h
      rcases List.mem_cons.1 h with rfl | h
      · exact Or.inl rfl
      · exact Or.inr (List.mem_cons_of_mem _ h)
    · rw [mapInsert, if_neg he] at h
      by_cases hlt : lexLt k k1 = true
      · rw [if_pos hlt] at h
        rcases List.mem_cons.1 h with rfl | h
        · exact Or.inl rfl
        · exact Or.inr h
      · rw [if_neg hlt] at h
        rcases List.mem_cons.1 h with rfl | h
        · exact Or.inr (List.mem_cons_self _ _)
        · rcases mapInsert_mem_weak k v rest e h with h | h
          · exact Or.inl h
          · exact Or.inr (List.mem_cons_of_mem _ h)

theorem mapInsert_mem (k : List Char) (v : String) :
    ∀ (m : List (List Char × String)), KeysSorted m →
      ∀ e : List Char × String,
        (e ∈ mapInsert k v m ↔ e = (k, v) ∨ (e ∈ m ∧ e.1 ≠ k))
  | [], _, e => by simp [mapInsert]
  | (k1, v1) :: rest, hs, e => by
    rw [KeysSorted, List.pairwise_cons] at hs
    obtain ⟨hall, hrest⟩ := hs
    by_cases he : k = k1
    · subst he
      rw [mapInsert, if_pos rfl]
      constructor
      · intro h
        rcases List.mem_cons.1 h with rfl | h
        · exact Or.inl rfl
        · refine Or.inr ⟨List.mem_cons_of_mem _ h, ?_⟩
          intro hek
          have := hall e h
          rw [hek] at this
          rw [lexLt_irrefl] at this
          exact Bool.false_ne_true this
      · rintro (rfl | ⟨hm, hne⟩)
        · exact List.mem_cons_self _ _
        · rcases List.mem_cons.1 hm with rfl | hm
          · exact absurd rfl hne
          · exact List.mem_cons_of_mem _ hm
    · rw [mapInsert, if_neg he]
      by_cases hlt : lexLt k k1 = true
      · rw [if_pos hlt]
        constructor
        · intro h
          rcases List.mem_cons.1 h with rfl | h
          · exact Or.inl rfl
          · rcases List.mem_cons.1 h with rfl | h
            · refine Or.inr ⟨List.mem_cons_self _ _, ?_⟩
              intro hek
              rw [← hek] at hlt
              rw [lexLt_irrefl] at hlt
              exact Bool.false_ne_true hlt
            · refine Or.inr ⟨List.mem_cons_of_mem _ h, ?_⟩
              intro hek
              have h2 := hall e h
              rw [hek, lexLt_asymm hlt] at h2
              exact Bool.false_ne_true h2
        · rintro (rfl | ⟨hm, _⟩)
          · exact List.mem_cons_self _ _
          · exact List.mem_cons_of_mem _ hm
      · rw [if_neg hlt]
        have hgt : lexLt k1 k = true := by
          rcases lexLt_connex (fun hq : k = k1 => he hq) with h | h
          · exact absurd h hlt
          · exact h
        constructor
        · intro h
          rcases List.mem_cons.1 h with rfl | h
          · refine Or.inr ⟨List.mem_cons_self _ _, ?_⟩
            intro hek
            dsimp at hek
            rw [hek, lexLt_irrefl] at hgt
            exact Bool.false_ne_true hgt
          · rcases (mapInsert_mem k v rest hrest e).1 h with h2 | ⟨h2, h3⟩
            · exact Or.inl h2
            · exact Or.inr ⟨List.mem_cons_of_mem _ h2, h3⟩
        · rintro (rfl | ⟨hm, hne⟩)
          · exact List.mem_cons_of_mem _ (mapInsert_self k v rest)
          · rcases List.mem_cons.1 hm with rfl | hm
            · exact List.mem_cons_self _ _
            · exact List.mem_cons_of_mem _
                ((mapInsert_mem k v rest hrest e).2 (Or.inr ⟨hm, hne⟩))

theorem mapInsert_sorted (k : List Char) (v : String) :
    ∀ (m : List (List Char × String)), KeysSorted m → KeysSorted (mapInsert k v m)
  | [], _ => by simp [mapInsert, KeysSorted]
  | (k1, v1) :: rest, hs => by
    have hs0 := hs
    rw [KeysSorted, List.pairwise_cons] at hs0
    obtain ⟨hall, hrest⟩ := hs0
    by_cases he : k = k1
    · subst he
      rw [mapInsert, if_pos rfl, KeysSorted, List.pairwise_cons]
      exact ⟨hall, hrest⟩
    · rw [mapInsert, if_neg he]
      by_cases hlt : lexLt k k1 = true
      · rw [if_pos hlt, KeysSorted, List.pairwise_cons]
        constructor
        · intro e hm
          rcases List.mem_cons.1 hm with rfl | hm
          · exact hlt
          · exact lexLt_trans hlt (hall e hm)
        · exact hs
      · rw [if_neg hlt]
        have hgt : lexLt k1 k = true := by
          rcases lexLt_connex (fun hq : k = k1 => he hq) with h | h
          · exact absurd h hlt
          · exact h
        rw [KeysSorted, List.pairwise_cons]
        constructor
        · intro e hm
          rcases (mapInsert_mem k v rest hrest e).1 hm with rfl | ⟨hm2, _⟩
          · exact hgt
          · exact hall e hm2
        · exact mapInsert_sorted k v rest hrest

/-! ## Lemmas about the probability map -/

theorem probFold_sorted (env : Env) (leg : Bool) :
    ∀ (ws : List String) (m : List (List Char × String)), KeysSorted m →
      KeysSorted (ws.foldl (fun m w => mapInsert (radixOf env leg w) w m) m)
  | [], _, h => h
  | w :: rest, m, h => by
    rw [List.foldl_cons]
    exact probFold_sorted env leg rest _ (mapInsert_sorted _ _ m h)

theorem probMapOf_sorted (env : Env) (leg : Bool) (ws : List String) :
    KeysSorted (probMapOf env leg ws) :=
  probFold_sorted env leg ws [] (by simp [KeysSorted])

theorem probFold_entry (env : Env) (leg : Bool) :
    ∀ (ws : List String) (m : List (List Char × String)),
      (∀ e ∈ m, e.1 = radixOf env leg e.2) →
      ∀ e ∈ ws.foldl (fun m w => mapInsert (radixOf env leg w) w m) m,
        e.1 = radixOf env leg e.2
  | [], _, hm, e, he => hm e he
  | w :: rest, m, hm, e, he => by
    rw [List.foldl_cons] at he
    refine probFold_entry env leg rest _ ?_ e he
    intro e2 he2
    rcases mapInsert_mem_weak _ _ _ _ he2 with rfl | h
    · rfl
    · exact hm e2 h

/-- Every entry of the probability map carries the radix of its own word. -/
theorem probMapOf_entry (env : Env) (leg : Bool) (ws : List String) :
    ∀ e ∈ probMapOf env leg ws, e.1 = radixOf env leg e.2 :=
  probFold_entry env leg ws [] (by intro e he; exact absurd he (List.not_mem_nil e))

theorem probFold_val (env : Env) (leg : Bool) :
    ∀ (ws : List String) (m : List (List Char × String))
      (e : List Char × String),
      e ∈ ws.foldl (fun m w => mapInsert (radixOf env leg w) w m) m →
      e.2 ∈ ws ∨ e ∈ m
  | [], _, _, he => Or.inr he
  | w :: rest, m, e, he => by
    rw [List.foldl_cons] at he
    rcases probFold_val env leg rest _ e he with h | h
    · exact Or.inl (List.mem_cons_of_mem _ h)
    · rcases mapInsert_mem_weak _ _ _ _ h with rfl | h2
      · exact Or.inl (List.mem_cons_self _ _)
      · exact Or.inr h2

/-- Values of the probability map all come from the inserted word list. -/
theorem probMapOf_val (env : Env) (leg : Bool) (ws : List String) :
    ∀ e ∈ probMapOf env leg ws, e.2 ∈ ws := by
  intro e he
  rcases probFold_val env leg ws [] e he with h | h
  · exact h
  · exact absurd h (List.not_mem_nil e)

theorem probFold_persist (env : Env) (leg : Bool) :
    ∀ (ws : List String) (m : List (List Char × String)) (e : List Char × String),
      KeysSorted m → e ∈ m → (∀ w ∈ ws, radixOf env leg w ≠ e.1) →
      e ∈ ws.foldl (fun m w => mapInsert (radixOf env leg w) w m) m
  | [], _, _, _, he, _ => he
  | w :: rest, m, e, hs, he, hfresh => by
    rw [List.foldl_cons]
    refine probFold_persist env leg rest _ e (mapInsert_sorted _ _ m hs) ?_ ?_
    · refine (mapInsert_mem _ _ m hs e).2 (Or.inr ⟨he, ?_⟩)
      intro h
      exact hfresh w (List.mem_cons_self _ _) h.symm
    · intro w2 hw2
      exact hfresh w2 (List.mem_cons_of_mem _ hw2)

theorem probFold_mem (env : Env) (leg : Bool) :
    ∀ (ws : List String) (m : List (List Char × String)), KeysSorted m →
      (ws.map fun w => radixOf env leg w).Nodup →
      ∀ w ∈ ws,
        (radixOf env leg w, w) ∈ ws.foldl (fun m w => mapInsert (radixOf env leg w) w m) m
  | [], _, _, _, w, hw => absurd hw (List.not_mem_nil w)
  | w0 :: rest, m, hs, hnd, w, hw => by
    rw [List.map_cons, List.nodup_cons] at hnd
    rw [List.foldl_cons]
    rcases List.mem_cons.1 hw with rfl | hw
    · refine probFold_persist env leg rest _ _ (mapInsert_sorted _ _ m hs)
        (mapInsert_self _ _ m) ?_
      intro w2 hw2 h
      have h2 : radixOf env leg w2 = radixOf env leg w := h
      exact hnd.1 (h2 ▸ List.mem_map_of_mem _ hw2)
    · exact probFold_mem env leg rest _ (mapInsert_sorted _ _ m hs) hnd.2 w hw

/-- With pairwise-distinct radices, every surviving word is present in the
probability map under its own radix. -/
theorem probMapOf_mem (env : Env) (leg : Bool) (ws : List String)
    (hnd : (ws.map fun w => radixOf env leg w).Nodup) :
    ∀ w ∈ ws, (radixOf env leg w, w) ∈ probMapOf env leg ws :=
  probFold_mem env leg ws [] (by simp [KeysSorted]) hnd

/-! ## Claim C8: equality collapse of numeric range conditions -/

theorem eq_range_bool (v k : Int) :
    decide (v = k) = (decide (v ≥ k) && decide (v ≤ k)) := by
  rcases lt_trichotomy v k with h | h | h
  · simp [ne_of_lt h, not_le_of_lt h]
  · subst h; simp
  · simp [ne_of_gt h, not_le_of_lt h]

/-- C8: for every numeric-range attribute-store condition (Length,
NumVowels, NumUniqueLetters, PointValue, NumAnagrams, or strict
ProbabilityOrder) with `min == max == k`, the equality predicate
`databaseSearch` builds selects exactly the rows of the open range
`[k, k]` (`column >= k AND column <= k`) of any relation. -/
theorem numeric_equality_collapse (c : SearchCondition) (rows : List DbRow)
    (hnum : isNumericRangeCond c = true) (hk : c.minValue = c.maxValue) :
    rows.filter (fun r => dbCondPred c r) =
      rangeSelect (columnOf c.type) c.minValue rows := by
  obtain ⟨t, mn, mx, sv, bv, ng, lg⟩ := c
  simp only at hk hnum ⊢
  subst hk
  cases t
  case Length =>
    unfold rangeSelect
    apply List.filter_congr
    intro r _
    simp only [dbCondPred, columnOf, if_pos rfl]
    exact eq_range_bool _ _
  case NumVowels =>
    unfold rangeSelect
    apply List.filter_congr
    intro r _
    simp only [dbCondPred, columnOf, if_pos rfl]
    exact eq_range_bool _ _
  case NumUniqueLetters =>
    unfold rangeSelect
    apply List.filter_congr
    intro r _
    simp only [dbCondPred, columnOf, if_pos rfl]
    exact eq_range_bool _ _
  case PointValue =>
    unfold rangeSelect
    apply List.filter_congr
    intro r _
    simp only [dbCondPred, columnOf, if_pos rfl]
    exact eq_range_bool _ _
  case NumAnagrams =>
    unfold rangeSelect
    apply List.filter_congr
    intro r _
    simp only [dbCondPred, columnOf, if_pos rfl]
    exact eq_range_bool _ _
  case ProbabilityOrder =>
    have hb : bv = false := by
      simp only [isNumericRangeCond] at hnum
      cases hbv : bv
      · rfl
      · rw [hbv] at hnum; exact absurd hnum (by simp)
    subst hb
    unfold rangeSelect
    apply List.filter_congr
    intro r _
    simp only [dbCondPred, columnOf, Bool.false_eq_true, if_false, if_pos rfl]
    exact eq_range_bool _ _
  all_goals simp [isNumericRangeCond] at hnum

theorem numeric_equality_collapse_witness :
    isNumericRangeCond { type := CondType.Length, minValue := 4, maxValue := 4 } = true ∧
    [rowCARE].filter
        (fun r => dbCondPred { type := CondType.Length, minValue := 4, maxValue := 4 } r) =
      rangeSelect (columnOf CondType.Length) 4 [rowCARE] :=
  ⟨by decide,
   numeric_equality_collapse { type := CondType.Length, minValue := 4, maxValue := 4 }
     [rowCARE] (by decide) rfl⟩

/-! ## Claim C5: the definition-link resolver is depth-bounded -/

/-- C5: `replaceDefinitionLinks` terminates for every definition text,
every definition data (including cyclic and self-referencing markers) and
every depth: the number of substitution passes is bounded by
`maxDepth + 1`; and at depth zero a remaining marker is replaced by its
literal marker word with no further expansion. -/
theorem replaceDefinitionLinks_bounded (subDef : String → String → String) :
    (∀ (d : Nat) (defn : String) (uf : Bool), linkPasses subDef d defn uf ≤ d + 1) ∧
    (∀ (defn : String) (uf : Bool),
      replaceDefinitionLinks subDef 0 defn uf =
        match findFirstMarker defn.data with
        | none => defn
        | some (_, i, w, _, len) => ⟨splice defn.data i len w⟩) := by
  constructor
  · intro d
    induction d with
    | zero =>
      intro defn uf
      unfold linkPasses
      cases findFirstMarker defn.data with
      | none => simp
      | some x => obtain ⟨isF, i, w, p, len⟩ := x; simp
    | succ d ih =>
      intro defn uf
      unfold linkPasses
      cases findFirstMarker defn.data with
      | none => simp
      | some x =>
        obtain ⟨isF, i, w, p, len⟩ := x
        simp only []
        have h := ih ⟨splice defn.data i len
          (mkReplacement subDef isF (uf || isF) (d + 1) w p)⟩ (uf || isF)
        omega
  · intro defn uf
    unfold replaceDefinitionLinks
    cases findFirstMarker defn.data with
    | none => rfl
    | some x =>
      obtain ⟨isF, i, w, p, len⟩ := x
      simp [mkReplacement]

/-! ## Claim C6: the follow mode is sticky -/

/-- C6: once the `useFollow` flag is true it is passed true into every
deeper recursive call and never reset — the whole remaining expansion
equals the variant that formats every substitution follow-style; and
matching a follow-form marker at any depth turns the flag on for the rest
of the chain, whatever it was before. -/
theorem follow_mode_sticky (subDef : String → String → String) :
    (∀ (d : Nat) (defn : String),
      replaceDefinitionLinks subDef d defn true = replaceDefinitionLinksF subDef d defn) ∧
    (∀ (d : Nat) (defn : String) (uf : Bool) (i : Nat) (w p : List Char) (len : Nat),
      findFirstMarker defn.data = some (true, i, w, p, len) →
      replaceDefinitionLinks subDef (d + 1) defn uf =
        replaceDefinitionLinksF subDef d
          ⟨splice defn.data i len (mkReplacement subDef true true (d + 1) w p)⟩) := by
  have main : ∀ (d : Nat) (defn : String),
      replaceDefinitionLinks subDef d defn true = replaceDefinitionLinksF subDef d defn := by
    intro d
    induction d with
    | zero =>
      intro defn
      unfold replaceDefinitionLinks replaceDefinitionLinksF
      cases findFirstMarker defn.data with
      | none => rfl
      | some x =>
        obtain ⟨isF, i, w, p, len⟩ := x
        simp
    | succ d ih =>
      intro defn
      unfold replaceDefinitionLinks replaceDefinitionLinksF
      cases findFirstMarker defn.data with
      | none => rfl
      | some x =>
        obtain ⟨isF, i, w, p, len⟩ := x
        simp only [Bool.true_or]
        exact ih _
  refine ⟨main, ?_⟩
  intro d defn uf i w p len h
  unfold replaceDefinitionLinks
  rw [h]
  simp only [Bool.or_true]
  exact main d _

theorem follow_mode_sticky_witness :
    findFirstMarker "a \x7bFOO=n\x7d b".data =
      some (true, 2, "FOO".data, "n".data, 7) ∧
    replaceDefinitionLinks cyclicSubDef 3 "a \x7bFOO=n\x7d b" false =
      replaceDefinitionLinksF cyclicSubDef 2
        ⟨splice "a \x7bFOO=n\x7d b".data 2 7
          (mkReplacement cyclicSubDef true true 3 "FOO".data "n".data)⟩ :=
  ⟨by decide,
   (follow_mode_sticky cyclicSubDef).2 2 "a \x7bFOO=n\x7d b" false 2
     "FOO".data "n".data 7 (by decide)⟩

/-! ## Claim C10: the cache is untouched by an empty search -/

theorem searchOpt_snd (env : Env) (cache : Cache) (ospec : SearchSpec) (caps : Bool) :
    ((searchOpt env cache ospec caps).1 = [] →
      (searchOpt env cache ospec caps).2 = cache) ∧
    ((searchOpt env cache ospec caps).1 ≠ [] →
      (searchOpt env cache ospec caps).2 =
        addToCache env [] (searchOpt env cache ospec caps).1) := by
  simp only [searchOpt]
  repeat' split
  all_goals first
    | exact ⟨fun _ => rfl, fun h => absurd rfl h⟩
    | (rename_i h4; exact ⟨fun _ => rfl, fun h => absurd h4 h⟩)
    | (rename_i h4; exact ⟨fun h => absurd h h4, fun _ => rfl⟩)

/-- C10: when `search` produces an empty final result list the word cache
is left completely unchanged (so `getWordInfo` keeps serving the entries a
previous search cached), and the wholesale clear-then-repopulate happens
exactly when the result list is non-empty. -/
theorem search_cache_frame (env : Env) (cache : Cache) (spec : SearchSpec)
    (allCaps : Bool) :
    ((search env cache spec allCaps).1 = [] →
      (search env cache spec allCaps).2 = cache ∧
      ∀ w, getWordInfo env (search env cache spec allCaps).2 w =
        getWordInfo env cache w) ∧
    ((search env cache spec allCaps).1 ≠ [] →
      (search env cache spec allCaps).2 =
        addToCache env [] (search env cache spec allCaps).1) := by
  have h := searchOpt_snd env cache (optimizeModel spec) allCaps
  constructor
  · intro he
    have h2 : (search env cache spec allCaps).2 = cache := h.1 he
    exact ⟨h2, fun w => by rw [h2]⟩
  · intro hne
    exact h.2 hne

theorem search_cache_frame_witness :
    (search envA [("OLD", ({} : WordInfo))] specPatternVowels false).2 =
      [("OLD", ({} : WordInfo))] ∧
    (search envB [] specPattern false).2 =
      addToCache envB [] (search envB [] specPattern false).1 :=
  ⟨((search_cache_frame envA [("OLD", {})] specPatternVowels false).1 (by decide)).1,
   (search_cache_frame envB [] specPattern false).2 (by decide)⟩

/-! ## Claims C1, C2: stage selection in `search` -/

theorem optimizeModel_conds (spec : SearchSpec) :
    (optimizeModel spec).conditions = spec.conditions ∨
    ∃ n : Int, (optimizeModel spec).conditions =
      spec.conditions ++ [{ type := CondType.Length, minValue := n, maxValue := n }] := by
  unfold optimizeModel
  cases fixedLengthOf spec.conditions with
  | none => exact Or.inl rfl
  | some n =>
    dsimp only
    by_cases h : (spec.conditions.any fun c => decide (c.type = CondType.Length)) = true
    · rw [if_pos h]
      exact Or.inl rfl
    · rw [if_neg h]
      exact Or.inr ⟨n, rfl⟩

theorem dbstage_skip_core (spec : SearchSpec)
    (hnodb : ∀ c ∈ spec.conditions, isDatabaseCond c.type = false)
    (hwg : ∃ c ∈ spec.conditions, isWordGraphCond c.type = true) :
    adjustedDbConds (optimizeModel spec).conditions = 0 := by
  have hdb0 : countDatabase spec.conditions = 0 := by
    rw [countDatabase, List.countP_eq_zero]
    intro c hcm
    simp [hnodb c hcm]
  have hlen0 : countLength spec.conditions = 0 := by
    rw [countLength, List.countP_eq_zero]
    intro c hcm
    simp only [decide_eq_true_eq]
    intro hL
    have h2 := hnodb c hcm
    rw [hL] at h2
    exact absurd h2 (by simp [isDatabaseCond])
  have hwgpos : 0 < countWordGraph spec.conditions := by
    rw [countWordGraph, List.countP_pos]
    obtain ⟨c, hcm, hcw⟩ := hwg
    exact ⟨c, hcm, by simp [hcw]⟩
  rcases optimizeModel_conds spec with h | ⟨n, h⟩
  · rw [adjustedDbConds, h, if_neg]
    · exact hdb0
    · rintro ⟨_, h2, _⟩
      omega
  · have hdb1 : countDatabase (optimizeModel spec).conditions = 1 := by
      rw [h, countDatabase, List.countP_append]
      rw [countDatabase] at hdb0
      rw [hdb0]
      rfl
    have hlen1 : countLength (optimizeModel spec).conditions = 1 := by
      rw [h, countLength, List.countP_append]
      rw [countLength] at hlen0
      rw [hlen0]
      rfl
    have hwg1 : 0 < countWordGraph (optimizeModel spec).conditions := by
      rw [h, countWordGraph, List.countP_append]
      rw [countWordGraph] at hwgpos
      omega
    rw [adjustedDbConds, if_pos ⟨hwg1, by omega, by omega⟩]
    omega

theorem searchOpt_no_db (env : Env) (cache : Cache) (ospec : SearchSpec) (caps : Bool)
    (h0 : adjustedDbConds ospec.conditions = 0) :
    (searchOpt env cache ospec caps).1 =
      (if env.graphSearch ospec = [] then []
       else
         (let r3 := if 0 < countPost ospec.conditions then
             applyPostConditions env ospec (env.graphSearch ospec)
           else env.graphSearch ospec;
          if caps then r3.map strUpper else r3)) := by
  have hs1 : searchStage1 env ospec = env.graphSearch ospec := by
    rw [searchStage1, if_pos (Or.inr h0)]
  have hs2 : searchStage2 env ospec = env.graphSearch ospec := by
    rw [searchStage2, if_neg (by simp [h0]), hs1]
  simp only [searchOpt, hs1, hs2, h0, ne_eq, not_true_eq_false, false_and, if_false,
    or_true, true_and]
  by_cases hg : env.graphSearch ospec = []
  · simp [hg]
  · simp only [if_neg hg]
    repeat' split
    all_goals rfl

/-- C1: when the original spec has no attribute-store condition but has a
word-graph condition, the only attribute-store conditions after
optimization are injected Length conditions, and `search` skips the
attribute-store stage entirely: the corrected database-condition count is
zero, the result list is the same whatever the attribute store holds (the
database is not queried for the result), and the result is the word-graph
result subjected to post-filters and case normalization only. -/
theorem dbstage_skip (env : Env) (cache : Cache) (spec : SearchSpec) (caps : Bool)
    (hnodb : ∀ c ∈ spec.conditions, isDatabaseCond c.type = false)
    (hwg : ∃ c ∈ spec.conditions, isWordGraphCond c.type = true) :
    adjustedDbConds (optimizeModel spec).conditions = 0 ∧
    (∀ db2 : Option (List DbRow),
      (search { env with db := db2 } cache spec caps).1 =
        (search env cache spec caps).1) ∧
    (search env cache spec caps).1 =
      (if env.graphSearch (optimizeModel spec) = [] then []
       else
         (let r3 := if 0 < countPost (optimizeModel spec).conditions then
             applyPostConditions env (optimizeModel spec)
               (env.graphSearch (optimizeModel spec))
           else env.graphSearch (optimizeModel spec);
          if caps then r3.map strUpper else r3)) := by
  have h0 := dbstage_skip_core spec hnodb hwg
  have hmain := searchOpt_no_db env cache (optimizeModel spec) caps h0
  refine ⟨h0, ?_, hmain⟩
  intro db2
  have h2 := searchOpt_no_db { env with db := db2 } cache (optimizeModel spec) caps h0
  unfold search
  rw [h2, hmain]
  rfl

theorem dbstage_skip_witness :
    (search { envA with db := some [rowCARE] } [] specPattern false).1 =
      (search envA [] specPattern false).1 :=
  (dbstage_skip envA [] specPattern false (by decide) (by decide)).2.1 (some [rowCARE])

/-- C2 as stated is false on the code: with the attribute store never
connected and an attribute-store condition remaining after optimization,
`search` returns the empty list, not the word-graph-only results. -/
theorem db_absent_counterexample :
    envA.db = none ∧
    searchStage1 envA (optimizeModel specPatternVowels) = ["CARE"] ∧
    (search envA [] specPatternVowels false).1 = [] ∧
    (search envA [] specPatternVowels false).1 ≠
      searchStage1 envA (optimizeModel specPatternVowels) := by
  refine ⟨rfl, by decide, by decide, ?_⟩
  decide

/-- C2 amended: when the attribute store was never connected, the
attribute-store stage's query yields no rows, so a search whose optimized
spec retains an attribute-store condition returns the empty list — the
engine does not degrade to word-graph-only results. -/
theorem db_absent_empty (env : Env) (cache : Cache) (spec : SearchSpec) (caps : Bool)
    (hdb : env.db = none)
    (hdbc : adjustedDbConds (optimizeModel spec).conditions ≠ 0) :
    (search env cache spec caps).1 = [] := by
  have hds : searchStage2 env (optimizeModel spec) = [] := by
    simp only [searchStage2, if_pos hdbc, databaseSearch, hdb]
  simp only [search, searchOpt]
  split
  · rfl
  · rw [if_pos ⟨hdbc, hds⟩]

theorem db_absent_empty_witness :
    (search envA [] specPatternVowels false).1 = [] :=
  db_absent_empty envA [] specPatternVowels false rfl (by decide)

/-! ## Claim C7: an out-of-range probability-order window empties the result -/

theorem probLimitFold_mono (conds : List SearchCondition) :
    ∀ acc : ProbLimitAcc,
      acc.rmin ≤ (conds.foldl probLimitStep acc).rmin ∧
      acc.rminLax ≤ (conds.foldl probLimitStep acc).rminLax ∧
      (acc.present = true → (conds.foldl probLimitStep acc).present = true) := by
  induction conds with
  | nil => intro acc; exact ⟨le_refl _, le_refl _, fun h => h⟩
  | cons c rest ih =>
    intro acc
    rw [List.foldl_cons]
    have hstep : acc.rmin ≤ (probLimitStep acc c).rmin ∧
        acc.rminLax ≤ (probLimitStep acc c).rminLax ∧
        (acc.present = true → (probLimitStep acc c).present = true) := by
      unfold probLimitStep
      split
      · refine ⟨?_, ?_, fun _ => rfl⟩
        · dsimp only
          split
          · exact le_refl _
          · split <;> omega
        · dsimp only
          split
          · split <;> omega
          · exact le_refl _
      · exact ⟨le_refl _, le_refl _, fun h => h⟩
    obtain ⟨h1, h2, h3⟩ := ih (probLimitStep acc c)
    exact ⟨le_trans hstep.1 h1, le_trans hstep.2.1 h2, fun h => h3 (hstep.2.2 h)⟩

theorem probLimitScan_ge (conds : List SearchCondition) (c : SearchCondition)
    (hc : c ∈ conds) (ht : c.type = CondType.LimitByProbabilityOrder) :
    (probLimitScan conds).present = true ∧
    c.minValue ≤
      (if c.boolValue then (probLimitScan conds).rminLax
       else (probLimitScan conds).rmin) := by
  obtain ⟨l1, l2, rfl⟩ := List.append_of_mem hc
  rw [probLimitScan, List.foldl_append, List.foldl_cons]
  have hstep : (probLimitStep (l1.foldl probLimitStep {}) c).present = true ∧
      c.minValue ≤
        (if c.boolValue then (probLimitStep (l1.foldl probLimitStep {}) c).rminLax
         else (probLimitStep (l1.foldl probLimitStep {}) c).rmin) := by
    unfold probLimitStep
    rw [if_pos ht]
    refine ⟨rfl, ?_⟩
    cases hb : c.boolValue
    · simp only [Bool.false_eq_true, if_false]
      split <;> omega
    · simp only [if_true]
      split <;> omega
  obtain ⟨h1, h2, h3⟩ := probLimitFold_mono l2 (probLimitStep (l1.foldl probLimitStep {}) c)
  refine ⟨h3 hstep.1, ?_⟩
  cases hb : c.boolValue
  · rw [hb] at hstep
    simp only [Bool.false_eq_true, if_false] at hstep ⊢
    exact le_trans hstep.2 h1
  · rw [hb] at hstep
    simp only [if_true] at hstep ⊢
    exact le_trans hstep.2 h2

theorem applyPost_overrun (env : Env) (ospec : SearchSpec) (wordList : List String)
    (c : SearchCondition) (hc : c ∈ ospec.conditions)
    (ht : c.type = CondType.LimitByProbabilityOrder)
    (hover : (((wordList.filter fun w =>
        matchesConditions env w ospec.conditions).length : Int)) < c.minValue) :
    applyPostConditions env ospec wordList = [] := by
  obtain ⟨hpres, hge⟩ := probLimitScan_ge ospec.conditions c hc ht
  unfold applyPostConditions
  rw [if_pos hpres, if_pos]
  cases hb : c.boolValue
  · rw [hb] at hge
    simp only [Bool.false_eq_true, if_false] at hge
    left
    omega
  · rw [hb] at hge
    simp only [if_true] at hge
    right
    omega

/-- C7: when a `LimitByProbabilityOrder` condition's 1-based lower bound
exceeds the number of words surviving the earlier stages and the per-word
post-filter conditions, `search` returns the empty list. -/
theorem prob_limit_overrun (env : Env) (cache : Cache) (spec : SearchSpec)
    (caps : Bool) (c : SearchCondition)
    (hc : c ∈ (optimizeModel spec).conditions)
    (ht : c.type = CondType.LimitByProbabilityOrder)
    (hover : ((survivorsOf env (optimizeModel spec)).length : Int) < c.minValue) :
    (search env cache spec caps).1 = [] := by
  have hpost : 0 < countPost (optimizeModel spec).conditions := by
    rw [countPost, List.countP_pos]
    exact ⟨c, hc, by simp [isPostCond, ht]⟩
  have happ : applyPostConditions env (optimizeModel spec)
      (searchStage2 env (optimizeModel spec)) = [] :=
    applyPost_overrun env (optimizeModel spec) _ c hc ht hover
  simp only [search, searchOpt]
  split
  · rfl
  · split
    · rfl
    · simp [hpost, happ]

theorem prob_limit_overrun_witness :
    (search envA [] specPatternLimit5 false).1 = [] :=
  prob_limit_overrun envA [] specPatternLimit5 false
    { type := CondType.LimitByProbabilityOrder, minValue := 5, maxValue := 7 }
    (by decide) rfl (by decide)

/-! ## Claim C9: stem import -/

theorem tokensAux_nonempty :
    ∀ (l cur : List Char), ∀ t ∈ tokensAux l cur, t ≠ []
  | [], cur, t, ht => by
    by_cases hc : cur = []
    · rw [tokensAux, if_pos hc] at ht
      exact absurd ht (List.not_mem_nil t)
    · rw [tokensAux, if_neg hc] at ht
      rcases List.mem_singleton.1 ht with rfl
      simpa using hc
  | c :: rest, cur, t, ht => by
    rw [tokensAux] at ht
    by_cases hw : isWS c = true
    · rw [if_pos hw] at ht
      by_cases hc : cur = []
      · rw [if_pos hc] at ht
        exact tokensAux_nonempty rest [] t ht
      · rw [if_neg hc] at ht
        rcases List.mem_cons.1 ht with rfl | ht
        · simpa using hc
        · exact tokensAux_nonempty rest [] t ht
    · rw [if_neg hw] at ht
      exact tokensAux_nonempty rest (c :: cur) t
        (by simpa using ht)

theorem tokensAux_no_ws :
    ∀ (l cur : List Char), (∀ ch ∈ cur, isWS ch = false) →
      ∀ t ∈ tokensAux l cur, ∀ ch ∈ t, isWS ch = false
  | [], cur, hcur, t, ht => by
    by_cases hc : cur = []
    · rw [tokensAux, if_pos hc] at ht
      exact absurd ht (List.not_mem_nil t)
    · rw [tokensAux, if_neg hc] at ht
      rcases List.mem_singleton.1 ht with rfl
      intro ch hch
      exact hcur ch (List.mem_reverse.1 hch)
  | c :: rest, cur, hcur, t, ht => by
    rw [tokensAux] at ht
    by_cases hw : isWS c = true
    · rw [if_pos hw] at ht
      by_cases hc : cur = []
      · rw [if_pos hc] at ht
        exact tokensAux_no_ws rest [] (by intro ch h; exact absurd h (List.not_mem_nil ch)) t ht
      · rw [if_neg hc] at ht
        rcases List.mem_cons.1 ht with rfl | ht
        · intro ch hch
          exact hcur ch (List.mem_reverse.1 hch)
        · exact tokensAux_no_ws rest []
            (by intro ch h; exact absurd h (List.not_mem_nil ch)) t ht
    · rw [if_neg hw] at ht
      refine tokensAux_no_ws rest (c :: cur) ?_ t (by simpa using ht)
      intro ch hch
      rcases List.mem_cons.1 hch with rfl | hch
      · simpa using hw
      · exact hcur ch hch

theorem intercalate_head (c0 : Char) (t : List Char) (rest : List (List Char)) :
    ∃ tail, List.intercalate [' '] ((c0 :: t) :: rest) = c0 :: tail := by
  cases rest with
  | nil =>
    refine ⟨t, ?_⟩
    simp [List.intercalate, List.intersperse]
  | cons r rrest =>
    refine ⟨t ++ [' '] ++ (List.intersperse [' '] (r :: rrest)).join, ?_⟩
    simp [List.intercalate, List.intersperse]

/-- A valid stem line's first token is nonempty. -/
theorem stemToken_ne_empty (line : String) (hv : stemLineValid line = true) :
    (stemToken line).length ≠ 0 := by
  have hne : (simplified line).data ≠ [] := by
    intro h
    rw [stemLineValid, h] at hv
    simp at hv
  rw [stemToken, firstToken]
  cases htk : tokensOf line.data with
  | nil =>
    exfalso
    apply hne
    rw [simplified, htk]
    rfl
  | cons tok rest =>
    have htok_ne : tok ≠ [] :=
      tokensAux_nonempty line.data [] tok
        (by rw [tokensOf] at htk; rw [htk]; exact List.mem_cons_self _ _)
    have htok_ws : ∀ ch ∈ tok, isWS ch = false := by
      refine tokensAux_no_ws line.data [] ?_ tok ?_
      · intro ch h; exact absurd h (List.not_mem_nil ch)
      · rw [tokensOf] at htk; rw [htk]; exact List.mem_cons_self _ _
    obtain ⟨c0, tokrest, rfl⟩ : ∃ c0 tokrest, tok = c0 :: tokrest := by
      cases tok with
      | nil => exact absurd rfl htok_ne
      | cons a b => exact ⟨a, b, rfl⟩
    have hc0 : (!(c0 = ' ' : Bool)) = true := by
      have hw := htok_ws c0 (List.mem_cons_self _ _)
      by_cases he : c0 = ' '
      · rw [he] at hw; simp [isWS] at hw
      · simp [he]
    obtain ⟨tail, heq⟩ := intercalate_head c0 tokrest rest
    rw [simplified, htk]
    show (⟨List.takeWhile _ (String.data ⟨List.intercalate [' '] ((c0 :: tokrest) :: rest)⟩)⟩ : String).length ≠ 0
    rw [heq]
    show (⟨List.takeWhile _ (c0 :: tail)⟩ : String).length ≠ 0
    rw [List.takeWhile]
    rw [hc0]
    simp [String.length]

theorem setInsert_mem (x : String) :
    ∀ (s : List String) (a : String), a ∈ setInsert x s ↔ a = x ∨ a ∈ s
  | [], a => by simp [setInsert]
  | y :: rest, a => by
    rw [setInsert]
    by_cases he : x = y
    · rw [if_pos he]
      subst he
      simp only [List.mem_cons]
      tauto
    · rw [if_neg he]
      by_cases hlt : lexLt x.data y.data = true
      · rw [if_pos hlt]
        simp only [List.mem_cons]
      · rw [if_neg hlt]
        simp only [List.mem_cons, setInsert_mem x rest a]
        tauto

theorem setFold_mem (new : List String) :
    ∀ (s : List String) (a : String),
      a ∈ new.foldl (fun s a => setInsert a s) s ↔ a ∈ s ∨ a ∈ new := by
  induction new with
  | nil => intro s a; simp
  | cons x rest ih =>
    intro s a
    rw [List.foldl_cons, ih, setInsert_mem]
    simp only [List.mem_cons]
    tauto

theorem natAssocFind_append_none (k : Nat) (v : List String) :
    ∀ m : List (Nat × List String), natAssocFind m k = none →
      natAssocFind (m ++ [(k, v)]) k = some v
  | [], _ => by simp [natAssocFind]
  | (k1, v1) :: rest, h => by
    rw [natAssocFind] at h
    by_cases he : k1 = k
    · rw [if_pos he] at h
      exact absurd h (by simp)
    · rw [if_neg he] at h
      rw [List.cons_append, natAssocFind, if_neg he]
      exact natAssocFind_append_none k v rest h

theorem natAssocFind_set (k : Nat) (v : List String) :
    ∀ m : List (Nat × List String),
      natAssocFind (natAssocSet m k v) k = some v
  | [] => by simp [natAssocSet, natAssocFind]
  | (k1, v1) :: rest => by
    rw [natAssocSet]
    by_cases he : k1 = k
    · rw [if_pos he, natAssocFind, if_pos rfl]
    · rw [if_neg he, natAssocFind, if_neg he]
      exact natAssocFind_set k v rest

theorem stemLineValid_iff (line : String) :
    stemLineValid line = true ↔
      ¬((simplified line).data = [] ∨ (simplified line).data.headD ' ' = '#') := by
  rw [stemLineValid]
  simp [List.isEmpty_iff, not_or]

theorem firstValidLen_cons_valid (line : String) (rest : List String)
    (hv : stemLineValid line = true) :
    firstValidLen (line :: rest) = (stemToken line).length := by
  rw [firstValidLen, List.find?_cons_of_pos _ hv]
  rfl

theorem firstValidLen_cons_invalid (line : String) (rest : List String)
    (hv : ¬ stemLineValid line = true) :
    firstValidLen (line :: rest) = firstValidLen rest := by
  rw [firstValidLen, List.find?_cons_of_neg _ hv, firstValidLen]

theorem acceptedTokens_cons_acc (L : Nat) (line : String) (rest : List String)
    (hv : stemLineValid line = true) (hl : (stemToken line).length = L) :
    acceptedTokens L (line :: rest) = stemToken line :: acceptedTokens L rest := by
  rw [acceptedTokens, List.filterMap_cons, if_pos ⟨hv, hl⟩]
  rfl

theorem acceptedTokens_cons_rej (L : Nat) (line : String) (rest : List String)
    (h : ¬(stemLineValid line = true ∧ (stemToken line).length = L)) :
    acceptedTokens L (line :: rest) = acceptedTokens L rest := by
  rw [acceptedTokens, List.filterMap_cons, if_neg h]
  rfl

theorem stemFold_spec (lines : List String) : ∀ acc : StemAcc,
    ((lines.foldl stemLine acc).length =
      (if acc.length = 0 then firstValidLen lines else acc.length)) ∧
    ((lines.foldl stemLine acc).words =
      acc.words ++
        acceptedTokens (if acc.length = 0 then firstValidLen lines else acc.length) lines) ∧
    ((lines.foldl stemLine acc).imported =
      acc.imported +
        (acceptedTokens (if acc.length = 0 then firstValidLen lines else acc.length)
          lines).length) ∧
    (∀ a, a ∈ (lines.foldl stemLine acc).alphas ↔
      a ∈ acc.alphas ∨
        ∃ t ∈ acceptedTokens (if acc.length = 0 then firstValidLen lines else acc.length)
          lines, getAlphagram t = a) := by
  induction lines with
  | nil =>
    intro acc
    refine ⟨?_, ?_, ?_, ?_⟩ <;>
      by_cases h : acc.length = 0 <;>
        simp [h, firstValidLen, acceptedTokens]
  | cons line rest ih =>
    intro acc
    rw [List.foldl_cons]
    by_cases hv : stemLineValid line = true
    · have hcond : ¬((simplified line).data = [] ∨ (simplified line).data.headD ' ' = '#') :=
        (stemLineValid_iff line).1 hv
      have hst : firstToken (simplified line) = stemToken line := rfl
      by_cases hacc : acc.length = 0
      · have hstep : stemLine acc line =
            { words := acc.words ++ [stemToken line]
              alphas := setInsert (getAlphagram (stemToken line)) acc.alphas
              imported := acc.imported + 1
              length := (stemToken line).length } := by
          rw [stemLine, if_neg hcond]
          simp only [hst, hacc, if_pos rfl, if_true]
          rw [if_neg (by simp)]
        rw [hstep]
        obtain ⟨ih1, ih2, ih3, ih4⟩ := ih
          { words := acc.words ++ [stemToken line]
            alphas := setInsert (getAlphagram (stemToken line)) acc.alphas
            imported := acc.imported + 1
            length := (stemToken line).length }
        have hne := stemToken_ne_empty line hv
        have hL : (if acc.length = 0 then firstValidLen (line :: rest) else acc.length) =
            (stemToken line).length := by
          rw [if_pos hacc, firstValidLen_cons_valid line rest hv]
        rw [if_neg hne] at ih1 ih2 ih3 ih4
        have hat := acceptedTokens_cons_acc (stemToken line).length line rest hv rfl
        refine ⟨?_, ?_, ?_, ?_⟩
        · rw [ih1, hL]
        · rw [ih2, hL, hat]
          simp
        · rw [ih3, hL, hat]
          simp [Nat.add_assoc, Nat.add_comm 1]
        · intro a
          rw [ih4, hL, hat]
          simp only [setInsert_mem, List.mem_cons]
          constructor
          · rintro ((rfl | h) | ⟨t, ht, rfl⟩)
            · exact Or.inr ⟨stemToken line, Or.inl rfl, rfl⟩
            · exact Or.inl h
            · exact Or.inr ⟨t, Or.inr ht, rfl⟩
          · rintro (h | ⟨t, (rfl | ht), rfl⟩)
            · exact Or.inl (Or.inr h)
            · exact Or.inl (Or.inl rfl)
            · exact Or.inr ⟨t, ht, rfl⟩
      · by_cases hlen : (stemToken line).length = acc.length
        · have hstep : stemLine acc line =
              { words := acc.words ++ [stemToken line]
                alphas := setInsert (getAlphagram (stemToken line)) acc.alphas
                imported := acc.imported + 1
                length := acc.length } := by
            rw [stemLine, if_neg hcond]
            simp only [hst, hacc, if_neg hacc, if_false]
            rw [if_neg (by simp [hlen])]
          rw [hstep]
          obtain ⟨ih1, ih2, ih3, ih4⟩ := ih
            { words := acc.words ++ [stemToken line]
              alphas := setInsert (getAlphagram (stemToken line)) acc.alphas
              imported := acc.imported + 1
              length := acc.length }
          rw [if_neg hacc] at ih1 ih2 ih3 ih4
          have hat := acceptedTokens_cons_acc acc.length line rest hv hlen
          refine ⟨?_, ?_, ?_, ?_⟩
          · rw [ih1, if_neg hacc]
          · rw [if_neg hacc, ih2, hat]
            simp
          · rw [if_neg hacc, ih3, hat]
            simp [Nat.add_assoc, Nat.add_comm 1]
          · intro a
            rw [if_neg hacc, ih4, hat]
            simp only [setInsert_mem, List.mem_cons]
            constructor
            · rintro ((rfl | h) | ⟨t, ht, rfl⟩)
              · exact Or.inr ⟨stemToken line, Or.inl rfl, rfl⟩
              · exact Or.inl h
              · exact Or.inr ⟨t, Or.inr ht, rfl⟩
            · rintro (h | ⟨t, (rfl | ht), rfl⟩)
              · exact Or.inl (Or.inr h)
              · exact Or.inl (Or.inl rfl)
              · exact Or.inr ⟨t, ht, rfl⟩
        · have hstep : stemLine acc line = acc := by
            rw [stemLine, if_neg hcond]
            simp only [hst, if_neg hacc]
            rw [if_pos (by simpa using hlen)]
          rw [hstep]
          obtain ⟨ih1, ih2, ih3, ih4⟩ := ih acc
          rw [if_neg hacc] at ih1 ih2 ih3 ih4 ⊢
          have hat := acceptedTokens_cons_rej acc.length line rest (by
            rintro ⟨_, h2⟩
            exact hlen h2)
          rw [hat]
          exact ⟨ih1, ih2, ih3, ih4⟩
    · have hcond : (simplified line).data = [] ∨ (simplified line).data.headD ' ' = '#' := by
        by_contra hc
        exact hv ((stemLineValid_iff line).2 hc)
      have hstep : stemLine acc line = acc := by
        rw [stemLine, if_pos hcond]
      rw [hstep]
      obtain ⟨ih1, ih2, ih3, ih4⟩ := ih acc
      have hfv := firstValidLen_cons_invalid line rest hv
      have hat : ∀ L, acceptedTokens L (line :: rest) = acceptedTokens L rest :=
        fun L => acceptedTokens_cons_rej L line rest (by rintro ⟨h1, _⟩; exact hv h1)
      by_cases hacc : acc.length = 0
      · rw [if_pos hacc] at ih1 ih2 ih3 ih4 ⊢
        rw [hfv, hat]
        exact ⟨ih1, ih2, ih3, ih4⟩
      · rw [if_neg hacc] at ih1 ih2 ih3 ih4 ⊢
        rw [hat]
        exact ⟨ih1, ih2, ih3, ih4⟩

/-- C9: `importStems` silently discards every line whose first token's
length differs from that of the file's first valid entry, returns the
count of accepted stems only, and a subsequent import whose stems have the
same length appends to the existing stem list and merges into the existing
alphagram set for that length (the `hsync` hypothesis records that the two
maps were populated together, as the engine always does). -/
theorem importStems_spec (st : StemMaps) (lines : List String)
    (hsync : natAssocFind st.stems (firstValidLen lines) = none →
      natAssocFind st.stemAlphagrams (firstValidLen lines) = none) :
    (lines.foldl stemLine {}).length = firstValidLen lines ∧
    (lines.foldl stemLine {}).words = acceptedTokens (firstValidLen lines) lines ∧
    (importStems st lines).2 = (acceptedTokens (firstValidLen lines) lines).length ∧
    natAssocFind (importStems st lines).1.stems (firstValidLen lines) =
      some ((natAssocFind st.stems (firstValidLen lines)).getD [] ++
        acceptedTokens (firstValidLen lines) lines) ∧
    (∀ a,
      a ∈ (natAssocFind (importStems st lines).1.stemAlphagrams
            (firstValidLen lines)).getD [] ↔
      a ∈ (natAssocFind st.stemAlphagrams (firstValidLen lines)).getD [] ∨
        ∃ t ∈ acceptedTokens (firstValidLen lines) lines, getAlphagram t = a) := by
  obtain ⟨h1, h2, h3, h4⟩ := stemFold_spec lines ({} : StemAcc)
  simp only [show ({} : StemAcc).length = 0 from rfl, if_pos rfl,
    show ({} : StemAcc).words = [] from rfl, show ({} : StemAcc).imported = 0 from rfl,
    show ({} : StemAcc).alphas = [] from rfl, List.nil_append, Nat.zero_add,
    List.not_mem_nil, false_or, if_true] at h1 h2 h3 h4
  refine ⟨h1, h2, ?_, ?_, ?_⟩
  · have hsnd : (importStems st lines).2 = (lines.foldl stemLine {}).imported := by
      simp only [importStems]
      cases natAssocFind st.stems (lines.foldl stemLine {}).length <;> rfl
    rw [hsnd, h3]
  · simp only [importStems, h1]
    cases hfind : natAssocFind st.stems (firstValidLen lines) with
    | none =>
      rw [natAssocFind_append_none _ _ _ hfind]
      simp only [Option.getD_none, List.nil_append]
      rw [h2]
    | some ws =>
      rw [natAssocFind_set]
      simp only [Option.getD_some]
      rw [h2]
  · simp only [importStems, h1]
    cases hfind : natAssocFind st.stems (firstValidLen lines) with
    | none =>
      have halph := hsync hfind
      intro a
      rw [natAssocFind_append_none _ _ _ halph, halph]
      simp only [Option.getD_some, Option.getD_none, List.not_mem_nil, false_or]
      exact h4 a
    | some ws =>
      intro a
      rw [natAssocFind_set]
      simp only [Option.getD_some]
      rw [setFold_mem, h4 a]

theorem importStems_spec_witness :
    (importStems {} ["AB cd", "ABC", "BA"]).2 =
      (acceptedTokens (firstValidLen ["AB cd", "ABC", "BA"])
        ["AB cd", "ABC", "BA"]).length :=
  (importStems_spec {} ["AB cd", "ABC", "BA"] (fun _ => rfl)).2.2.1

/-! ## Claim C4: ordering of the probability-limited result -/

/-- C4 as stated is false on the code: with equal combination counts the
code orders by the concatenation `alphagram ++ word`, which can disagree
with (alphagram ascending, then word ascending) when one alphagram is a
proper prefix of the other.  Here `ZYA` (alphagram `AYZ`) should precede
`AZZY` (alphagram `AYZZ`) under the claimed key, but the code returns
`AZZY` first. -/
theorem claim_rank_counterexample :
    applyPostConditions envA specLimitLax12 ["ZYA", "AZZY"] = ["AZZY", "ZYA"] ∧
    envA.numCombinations (strUpper "AZZY") = envA.numCombinations (strUpper "ZYA") ∧
    getAlphagram (strUpper "ZYA") = "AYZ" ∧ getAlphagram (strUpper "AZZY") = "AYZZ" ∧
    ¬ claimRankLt envA false "AZZY" "ZYA" ∧
    claimRankLt envA false "ZYA" "AZZY" := by
  refine ⟨by decide, rfl, by decide, by decide, ?_, ?_⟩ <;>
    · unfold claimRankLt
      decide

/-- C4 amended: the list returned under a `LimitByProbabilityOrder`
condition is sorted by rarity-combination count descending, then — unless
the legacy flag was seen — by the concatenation `alphagram ++ word`
ascending (which agrees with alphagram-then-word ordering except when one
alphagram is a proper prefix of another); with the legacy flag the
secondary key is the word alone. -/
theorem applyPost_sorted (env : Env) (spec : SearchSpec) (wordList : List String)
    (hpres : ∃ c ∈ spec.conditions, c.type = CondType.LimitByProbabilityOrder)
    (hcombos : ∀ w, env.numCombinations w < 10 ^ 9) :
    (applyPostConditions env spec wordList).Pairwise
      (codeRankLt env (probLimitScan spec.conditions).legacy) := by
  obtain ⟨c, hc, ht⟩ := hpres
  have hpres2 : (probLimitScan spec.conditions).present = true :=
    (probLimitScan_ge spec.conditions c hc ht).1
  simp only [applyPostConditions, if_pos hpres2]
  split
  · exact List.Pairwise.nil
  · have hval : ((probMapOf env (probLimitScan spec.conditions).legacy
        (wordList.filter fun w =>
          matchesConditions env w spec.conditions)).map Prod.snd).Pairwise
        (codeRankLt env (probLimitScan spec.conditions).legacy) := by
      rw [List.pairwise_map]
      refine List.Pairwise.imp_of_mem ?_
        (probMapOf_sorted env (probLimitScan spec.conditions).legacy _)
      intro e1 e2 h1 h2 hlt
      have he1 := probMapOf_entry env _ _ e1 h1
      have he2 := probMapOf_entry env _ _ e2 h2
      rw [he1, he2] at hlt
      rw [codeRankLt]
      exact (radixOf_lt_iff env _ e1.2 e2.2 (hcombos _) (hcombos _)).1 hlt
    simp only [listMid]
    exact hval.sublist ((List.take_sublist _ _).trans (List.drop_sublist _ _))

theorem applyPost_sorted_witness :
    (applyPostConditions envA specLimitLax12 ["ZYA", "AZZY"]).Pairwise
      (codeRankLt envA (probLimitScan specLimitLax12.conditions).legacy) :=
  applyPost_sorted envA specLimitLax12 ["ZYA", "AZZY"]
    ⟨{ type := CondType.LimitByProbabilityOrder, minValue := 1, maxValue := 2,
       boolValue := true }, by decide, rfl⟩
    (by intro w; exact (by decide : (5 : Nat) < 10 ^ 9))

/-! ## Claim C3: tie handling at the probability-window boundaries -/

/-- C3 as stated is false on the code: with a strict (non-lax)
`LimitByProbabilityOrder` condition the widening loops stop at the strict
bound immediately, so a tie group is split across the window boundary.
`AB` and `BA` draw in equally many ways, yet the strict `[1,1]` window
returns only `AB`. -/
theorem tie_split_counterexample :
    ("BA" ∈ (["AB", "BA"].filter fun w =>
      matchesConditions envA w specLimitStrict11.conditions)) ∧
    envA.numCombinations (strUpper "AB") = envA.numCombinations (strUpper "BA") ∧
    applyPostConditions envA specLimitStrict11 ["AB", "BA"] = ["AB"] ∧
    "BA" ∉ applyPostConditions envA specLimitStrict11 ["AB", "BA"] := by
  refine ⟨by decide, rfl, by decide, by decide⟩

theorem getD_get (l : List (List Char)) (i : Nat) (h : i < l.length) :
    l.getD i [] = l.get ⟨i, h⟩ := by
  rw [List.getD_eq_getElem?_getD, List.getElem?_eq_getElem h]
  rfl

theorem strExt (s t : String) (h : s.data = t.data) : s = t := by
  cases s
  cases t
  exact congrArg String.mk h

theorem radix_inj_upper (env : Env) (leg : Bool) (w1 w2 : String)
    (h : radixOf env leg w1 = radixOf env leg w2) : strUpper w1 = strUpper w2 := by
  rw [radixOf_decomp, radixOf_decomp] at h
  have hsfx : radixSuffix leg w1 = radixSuffix leg w2 :=
    (List.append_inj h (by rw [pad9_length, pad9_length])).2
  rw [radixSuffix, radixSuffix] at hsfx
  cases leg
  · simp only [Bool.false_eq_true, if_false] at hsfx
    have hlen : (getAlphagram (strUpper w1)).data.length = (strUpper w1).data.length := by
      rw [getAlphagram]
      exact sortChars_length _
    have hlen2 : (getAlphagram (strUpper w2)).data.length = (strUpper w2).data.length := by
      rw [getAlphagram]
      exact sortChars_length _
    have hlensum := congrArg List.length hsfx
    simp only [List.length_append, hlen, hlen2] at hlensum
    have := (List.append_inj hsfx (by omega)).2
    exact strExt _ _ this
  · simp only [if_true] at hsfx
    exact strExt _ _ hsfx

theorem radix_nodup (env : Env) (leg : Bool) (R : List String)
    (hnd : (R.map strUpper).Nodup) :
    (R.map fun w => radixOf env leg w).Nodup := by
  have hRnd : R.Nodup := List.Nodup.of_map _ hnd
  refine List.Nodup.map_on ?_ hRnd
  intro x hx y hy hxy
  exact List.inj_on_of_nodup_map hnd hx hy (radix_inj_upper env leg x y hxy)

theorem keys_prefix_mono (keys : List (List Char))
    (hsor : keys.Pairwise (fun a b => lexLt a b = true))
    (i j : Nat) (hij : i ≤ j) (hj : j < keys.length) :
    (keys.getD i []).take 9 = (keys.getD j []).take 9 ∨
      lexLt ((keys.getD i []).take 9) ((keys.getD j []).take 9) = true := by
  rcases Nat.eq_or_lt_of_le hij with rfl | hlt
  · exact Or.inl rfl
  · have hi : i < keys.length := lt_trans hlt hj
    have hR := (List.pairwise_iff_get.1 hsor) ⟨i, hi⟩ ⟨j, hj⟩ hlt
    rw [getD_get keys i hi, getD_get keys j hj]
    rcases lexLt_take 9 hR with h | h
    · exact Or.inr h
    · exact Or.inl h

theorem keys_prefix_sandwich (keys : List (List Char))
    (hsor : keys.Pairwise (fun a b => lexLt a b = true))
    (i k j : Nat) (hik : i ≤ k) (hkj : k ≤ j) (hj : j < keys.length)
    (hij : (keys.getD i []).take 9 = (keys.getD j []).take 9) :
    (keys.getD k []).take 9 = (keys.getD i []).take 9 := by
  rcases keys_prefix_mono keys hsor i k hik (lt_of_le_of_lt hkj hj) with h1 | h1
  · exact h1.symm
  · rcases keys_prefix_mono keys hsor k j hkj hj with h2 | h2
    · rw [h2, ← hij]
    · exfalso
      rw [hij] at h1
      have := lexLt_trans h2 h1
      rw [lexLt_irrefl] at this
      exact Bool.false_ne_true this

theorem widenMin_spec (keys : List (List Char)) (lo : Int) (pfx : List Char) :
    ∀ m0 : Nat, (keys.getD m0 []).take 9 = pfx →
      widenMin keys lo pfx m0 ≤ m0 ∧
      (keys.getD (widenMin keys lo pfx m0) []).take 9 = pfx ∧
      (widenMin keys lo pfx m0 = 0 ∨ ((widenMin keys lo pfx m0 : Int) ≤ lo) ∨
        (keys.getD (widenMin keys lo pfx m0 - 1) []).take 9 ≠ pfx)
  | 0, h => ⟨le_refl _, h, Or.inl rfl⟩
  | m + 1, h => by
    rw [widenMin]
    split
    · rename_i hcond
      obtain ⟨h1, h2, h3⟩ := widenMin_spec keys lo pfx m hcond.2
      exact ⟨le_trans h1 (Nat.le_succ m), h2, h3⟩
    · rename_i hcond
      push_neg at hcond
      refine ⟨le_refl _, h, ?_⟩
      by_cases hl : ((m : Int) + 1 > lo)
      · right; right
        have := hcond hl
        simpa using this
      · right; left
        push_neg at hl
        exact_mod_cast hl

theorem widenMaxGo_spec (keys : List (List Char)) (hi : Int) (pfx : List Char) :
    ∀ (fuel mx : Nat), (keys.getD mx []).take 9 = pfx →
      keys.length ≤ fuel + mx →
      mx ≤ widenMaxGo keys hi pfx fuel mx ∧
      (keys.getD (widenMaxGo keys hi pfx fuel mx) []).take 9 = pfx ∧
      (keys.length ≤ widenMaxGo keys hi pfx fuel mx + 1 ∨
        hi ≤ (widenMaxGo keys hi pfx fuel mx : Int) ∨
        (keys.getD (widenMaxGo keys hi pfx fuel mx + 1) []).take 9 ≠ pfx) ∧
      (mx < keys.length → widenMaxGo keys hi pfx fuel mx < keys.length)
  | 0, mx, h, hfuel =>
    ⟨le_refl _, h, Or.inl (by show keys.length ≤ mx + 1; omega), fun h2 => h2⟩
  | fuel + 1, mx, h, hfuel => by
    rw [widenMaxGo]
    split
    · rename_i hcond
      obtain ⟨h1, h2, h3, h4⟩ :=
        widenMaxGo_spec keys hi pfx fuel (mx + 1) hcond.2.2 (by omega)
      exact ⟨le_trans (Nat.le_succ mx) h1, h2, h3, fun _ => h4 hcond.1⟩
    · rename_i hcond
      push_neg at hcond
      refine ⟨le_refl _, h, ?_, fun h2 => h2⟩
      by_cases hA : mx + 1 < keys.length
      · by_cases hB : (mx : Int) < hi
        · right; right
          exact hcond hA hB
        · right; left
          omega
      · left
        omega

theorem widenMax_spec (keys : List (List Char)) (hi : Int) (pfx : List Char)
    (mx : Nat) (h : (keys.getD mx []).take 9 = pfx) :
    mx ≤ widenMax keys hi pfx mx ∧
    (keys.getD (widenMax keys hi pfx mx) []).take 9 = pfx ∧
    (keys.length ≤ widenMax keys hi pfx mx + 1 ∨
      hi ≤ (widenMax keys hi pfx mx : Int) ∨
      (keys.getD (widenMax keys hi pfx mx + 1) []).take 9 ≠ pfx) ∧
    (mx < keys.length → widenMax keys hi pfx mx < keys.length) :=
  widenMaxGo_spec keys hi pfx keys.length mx h (by omega)

theorem slice_mem_iff (l : List String) (a b : Nat) (x : String) :
    (x ∈ (l.drop a).take b) ↔
      ∃ j : Nat, a ≤ j ∧ j < a + b ∧
        ∃ hj : j < l.length, l.get ⟨j, hj⟩ = x := by
  constructor
  · intro hx
    obtain ⟨⟨i, hi⟩, hg⟩ := List.mem_iff_get.1 hx
    have hi2 := hi
    simp only [List.length_take, List.length_drop, lt_min_iff] at hi2
    refine ⟨a + i, by omega, by omega, by omega, ?_⟩
    rw [← hg]
    simp [List.getElem_take, List.getElem_drop]
  · rintro ⟨j, hja, hjb, hj, hg⟩
    have hlen : j - a < ((l.drop a).take b).length := by
      simp only [List.length_take, List.length_drop, lt_min_iff]
      omega
    rw [List.mem_iff_get]
    refine ⟨⟨j - a, hlen⟩, ?_⟩
    rw [← hg]
    simp only [List.get_eq_getElem, List.getElem_take, List.getElem_drop]
    congr 1
    omega

/-- Tie-closedness of the widened window at the value level: when the
strict bounds do not truncate the widening (`lo ≤ 0`, `size - 1 ≤ hi` —
the situation when every `LimitByProbabilityOrder` condition is lax), any
word tied in combination count with a returned word is returned too. -/
theorem slice_tie_closed (env : Env) (leg : Bool) (R : List String)
    (hnd : (R.map strUpper).Nodup)
    (hcombos : ∀ w, env.numCombinations w < 10 ^ 9)
    (lo hi : Int) (min0 max0 : Nat)
    (pm : List (List Char × String)) (keys : List (List Char)) (values : List String)
    (hpm : pm = probMapOf env leg R)
    (hkeys : keys = pm.map Prod.fst) (hvalues : values = pm.map Prod.snd)
    (minW maxW : Nat)
    (hminW : minW = widenMin keys lo ((keys.getD min0 []).take 9) min0)
    (hmaxW : maxW = widenMax keys hi ((keys.getD max0 []).take 9) max0)
    (res : List String)
    (hres : res = listMid values (minW : Int) ((maxW : Int) - (minW : Int) + 1))
    (hlo : lo ≤ 0) (hhi : (keys.length : Int) - 1 ≤ hi)
    (hmin0 : min0 < keys.length) (hmax0 : max0 < keys.length) :
    ∀ w1 ∈ res, ∀ w2 ∈ R,
      env.numCombinations (strUpper w2) = env.numCombinations (strUpper w1) →
      w2 ∈ res := by
  have hsorpm := probMapOf_sorted env leg R
  rw [← hpm] at hsorpm
  have hsork : keys.Pairwise (fun a b => lexLt a b = true) := by
    rw [hkeys, List.pairwise_map]
    exact hsorpm
  have hklen : keys.length = pm.length := by rw [hkeys]; simp
  have hvlen : values.length = pm.length := by rw [hvalues]; simp
  -- per-index facts
  have hkey_get : ∀ (j : Nat) (hj : j < pm.length),
      keys.getD j [] = (pm.get ⟨j, hj⟩).1 := by
    subst hkeys
    intro j hj
    rw [getD_get (pm.map Prod.fst) j (by simpa using hj)]
    simp
  have hval_get : ∀ (j : Nat) (hj : j < pm.length),
      values.get ⟨j, by omega⟩ = (pm.get ⟨j, hj⟩).2 := by
    subst hvalues
    intro j hj
    simp
  have hpfx : ∀ (j : Nat) (hj : j < pm.length),
      (keys.getD j []).take 9 = pad9 (radixC env (pm.get ⟨j, hj⟩).2) := by
    intro j hj
    rw [hkey_get j hj,
      probMapOf_entry env leg R (pm.get ⟨j, hj⟩) (hpm ▸ pm.get_mem _ _),
      radixOf_take9]
  -- widen loop facts
  obtain ⟨hm1, hm2, hm3⟩ := widenMin_spec keys lo ((keys.getD min0 []).take 9) min0 rfl
  obtain ⟨hx1, hx2, hx3, hx4⟩ := widenMax_spec keys hi ((keys.getD max0 []).take 9) max0 rfl
  rw [← hminW] at hm1 hm2 hm3
  rw [← hmaxW] at hx1 hx2 hx3 hx4
  have hmaxWlt : maxW < keys.length := hx4 hmax0
  have hminWlt : minW < keys.length := lt_of_le_of_lt hm1 hmin0
  -- the slice in drop/take form
  have hres2 : res = (values.drop minW).take
      (if maxW + 1 < minW then values.length - minW else maxW + 1 - minW) := by
    rw [hres, listMid]
    by_cases hc : maxW + 1 < minW
    · rw [if_pos (Or.inl (by omega)), if_pos hc]
      have h1 : ((minW : Int)).toNat = minW := by omega
      have h2 : (((values.length : Int)) - ((minW : Int))).toNat =
          values.length - minW := by omega
      rw [h1, h2]
    · rw [if_neg (by rw [hvlen, ← hklen]; omega), if_neg hc]
      have h1 : ((minW : Int)).toNat = minW := by omega
      have h2 : (((maxW : Int)) - ((minW : Int)) + 1).toNat =
          maxW + 1 - minW := by omega
      rw [h1, h2]
  -- membership in the slice, as an index range
  have hmem : ∀ x, x ∈ res ↔
      ∃ j : Nat, minW ≤ j ∧
        (j < (if maxW + 1 < minW then values.length else maxW + 1)) ∧
        ∃ hj : j < values.length, values.get ⟨j, hj⟩ = x := by
    intro x
    rw [hres2, slice_mem_iff]
    constructor
    · rintro ⟨j, hja, hjb, hj, hg⟩
      refine ⟨j, hja, ?_, hj, hg⟩
      by_cases hc : maxW + 1 < minW
      · rw [if_pos hc] at hjb ⊢
        exact hj
      · rw [if_neg hc] at hjb ⊢
        omega
    · rintro ⟨j, hja, hjb, hj, hg⟩
      refine ⟨j, hja, ?_, hj, hg⟩
      by_cases hc : maxW + 1 < minW
      · rw [if_pos hc] at hjb ⊢
        omega
      · rw [if_neg hc] at hjb ⊢
        omega
  intro w1 hw1 w2 hw2 hcomb
  obtain ⟨j1, hj1a, hj1b, hj1, hg1⟩ := (hmem w1).1 hw1
  -- position of w2 in the map
  have hndr := radix_nodup env leg R hnd
  have hw2mem : (radixOf env leg w2, w2) ∈ pm := by
    rw [hpm]
    exact probMapOf_mem env leg R hndr w2 hw2
  obtain ⟨⟨j2, hj2⟩, hg2⟩ := List.mem_iff_get.1 hw2mem
  have hj2v : j2 < values.length := by omega
  have hval2 : values.get ⟨j2, hj2v⟩ = w2 := by
    rw [hval_get j2 hj2, hg2]
  -- the two prefixes agree
  have hpfx1 : (keys.getD j1 []).take 9 =
      pad9 (radixC env w1) := by
    have := hpfx j1 (by omega)
    rw [this, ← hval_get j1 (by omega)]
    rw [hg1]
  have hpfx2 : (keys.getD j2 []).take 9 = pad9 (radixC env w2) := by
    have := hpfx j2 hj2
    rw [this, hg2]
  have hradeq : radixC env w2 = radixC env w1 := by
    unfold radixC
    have := hcombos (strUpper w1)
    have := hcombos (strUpper w2)
    omega
  have hpfxeq : (keys.getD j2 []).take 9 = (keys.getD j1 []).take 9 := by
    rw [hpfx1, hpfx2, hradeq]
  -- j2 is not left of the widened window
  have hj2min : minW ≤ j2 := by
    by_contra hcon
    push_neg at hcon
    have hminpos : 1 ≤ minW := by omega
    have hs1 : (keys.getD (minW - 1) []).take 9 = (keys.getD j2 []).take 9 :=
      keys_prefix_sandwich keys hsork j2 (minW - 1) j1 (by omega) (by omega)
        (by omega) hpfxeq
    have hs2 : (keys.getD minW []).take 9 = (keys.getD j2 []).take 9 :=
      keys_prefix_sandwich keys hsork j2 minW j1 (by omega) hj1a (by omega) hpfxeq
    rcases hm3 with h | h | h
    · omega
    · omega
    · exact h (by rw [hs1, ← hs2, hm2])
  -- j2 is not right of the widened window
  have hj2max : j2 < (if maxW + 1 < minW then values.length else maxW + 1) := by
    by_cases hc : maxW + 1 < minW
    · rw [if_pos hc]
      exact hj2v
    · rw [if_neg hc]
      by_contra hcon
      push_neg at hcon
      have hj1top : j1 ≤ maxW := by
        rw [if_neg hc] at hj1b
        omega
      have hs1 : (keys.getD maxW []).take 9 = (keys.getD j1 []).take 9 :=
        keys_prefix_sandwich keys hsork j1 maxW j2 hj1top (by omega) (by omega)
          hpfxeq.symm
      have hs2 : (keys.getD (maxW + 1) []).take 9 = (keys.getD j1 []).take 9 :=
        keys_prefix_sandwich keys hsork j1 (maxW + 1) j2 (by omega) hcon (by omega)
          hpfxeq.symm
      rcases hx3 with h | h | h
      · omega
      · omega
      · exact h (by rw [hs2, ← hs1, hx2])
  exact (hmem w2).2 ⟨j2, hj2min, hj2max, hj2v, hval2⟩

/-! Facts about the scan over `LimitByProbabilityOrder` conditions that
drive the amended window claim. -/

theorem probFoldPL_present : ∀ (l : List SearchCondition) (acc : ProbLimitAcc),
    (l.foldl probLimitStep acc).present =
      (acc.present || l.any fun c => decide (c.type = CondType.LimitByProbabilityOrder))
  | [], acc => by simp
  | c :: cs, acc => by
    rw [List.foldl_cons, List.any_cons, probFoldPL_present cs]
    by_cases h : c.type = CondType.LimitByProbabilityOrder
    · rw [probLimitStep, if_pos h]
      simp [h]
    · rw [probLimitStep, if_neg h]
      simp [h]

/-- A condition whose lax flag is set never touches the strict range
variables, so an all-lax scan leaves them at their defaults. -/
theorem probFoldPL_strict : ∀ (l : List SearchCondition) (acc : ProbLimitAcc),
    (∀ c ∈ l, c.type = CondType.LimitByProbabilityOrder → c.boolValue = true) →
    (l.foldl probLimitStep acc).rmin = acc.rmin ∧
      (l.foldl probLimitStep acc).rmax = acc.rmax
  | [], _, _ => ⟨rfl, rfl⟩
  | c :: cs, acc, h => by
    rw [List.foldl_cons]
    have ih := probFoldPL_strict cs (probLimitStep acc c)
      (fun c' hc' => h c' (List.mem_cons_of_mem _ hc'))
    by_cases hc : c.type = CondType.LimitByProbabilityOrder
    · have hb := h c (List.mem_cons_self c cs) hc
      refine ⟨?_, ?_⟩
      · rw [ih.1, probLimitStep, if_pos hc]
        simp [hb]
      · rw [ih.2, probLimitStep, if_pos hc]
        simp [hb]
    · have hstep : probLimitStep acc c = acc := by rw [probLimitStep, if_neg hc]
      rw [hstep] at ih ⊢
      exact ih

theorem probLimitScan_strict (conds : List SearchCondition)
    (hlax : ∀ c ∈ conds, c.type = CondType.LimitByProbabilityOrder →
      c.boolValue = true) :
    (probLimitScan conds).rmin = 0 ∧ (probLimitScan conds).rmax = 999999 := by
  have h := probFoldPL_strict conds {} hlax
  exact ⟨h.1.trans rfl, h.2.trans rfl⟩

theorem probLimitScan_present (conds : List SearchCondition) :
    (probLimitScan conds).present =
      conds.any fun c => decide (c.type = CondType.LimitByProbabilityOrder) := by
  rw [probLimitScan, probFoldPL_present]
  simp

/-- When every `LimitByProbabilityOrder` condition is lax with bounds
`[1,1]`, the lax range variables either stay at their defaults (no such
condition was seen) or both settle at `1`. -/
theorem probFoldPL_lax11 : ∀ (l : List SearchCondition) (acc : ProbLimitAcc),
    (∀ c ∈ l, c.type = CondType.LimitByProbabilityOrder →
      c.boolValue = true ∧ c.minValue = 1 ∧ c.maxValue = 1) →
    ((acc.rminLax = 0 ∧ acc.rmaxLax = 999999) ∨
      (acc.rminLax = 1 ∧ acc.rmaxLax = 1)) →
    ((∀ c ∈ l, ¬ c.type = CondType.LimitByProbabilityOrder) ∧
        l.foldl probLimitStep acc = acc) ∨
      ((l.foldl probLimitStep acc).rminLax = 1 ∧
        (l.foldl probLimitStep acc).rmaxLax = 1)
  | [], acc, _, _ =>
    Or.inl ⟨fun c hc => absurd hc (List.not_mem_nil c), rfl⟩
  | c :: cs, acc, h, hacc => by
    rw [List.foldl_cons]
    by_cases hc : c.type = CondType.LimitByProbabilityOrder
    · obtain ⟨hb, hmn, hmx⟩ := h c (List.mem_cons_self c cs) hc
      have hstep : (probLimitStep acc c).rminLax = 1 ∧
          (probLimitStep acc c).rmaxLax = 1 := by
        rw [probLimitStep, if_pos hc]
        refine ⟨?_, ?_⟩
        · show (if c.boolValue then
              (if c.minValue > acc.rminLax then c.minValue else acc.rminLax)
            else acc.rminLax) = 1
          rw [hb, if_pos rfl, hmn]
          rcases hacc with ⟨h1, _⟩ | ⟨h1, _⟩ <;> rw [h1] <;> norm_num
        · show (if c.boolValue then
              (if c.maxValue < acc.rmaxLax then c.maxValue else acc.rmaxLax)
            else acc.rmaxLax) = 1
          rw [hb, if_pos rfl, hmx]
          rcases hacc with ⟨_, h2⟩ | ⟨_, h2⟩ <;> rw [h2] <;> norm_num
      rcases probFoldPL_lax11 cs (probLimitStep acc c)
          (fun c' hc' => h c' (List.mem_cons_of_mem _ hc')) (Or.inr hstep) with
        ⟨_, heq⟩ | hres
      · rw [heq]
        exact Or.inr hstep
      · exact Or.inr hres
    · have hstep : probLimitStep acc c = acc := by rw [probLimitStep, if_neg hc]
      rw [hstep]
      rcases probFoldPL_lax11 cs acc
          (fun c' hc' => h c' (List.mem_cons_of_mem _ hc')) hacc with
        ⟨hno, heq⟩ | hres
      · refine Or.inl ⟨?_, heq⟩
        intro c' hc'
        rcases List.mem_cons.1 hc' with rfl | hmem
        · exact hc
        · exact hno c' hmem
      · exact Or.inr hres

theorem probLimitScan_lax11 (conds : List SearchCondition)
    (h11 : ∀ c ∈ conds, c.type = CondType.LimitByProbabilityOrder →
      c.boolValue = true ∧ c.minValue = 1 ∧ c.maxValue = 1)
    (hpres : ∃ c ∈ conds, c.type = CondType.LimitByProbabilityOrder) :
    (probLimitScan conds).rminLax = 1 ∧ (probLimitScan conds).rmaxLax = 1 := by
  rw [probLimitScan]
  rcases probFoldPL_lax11 conds {} h11 (Or.inl ⟨rfl, rfl⟩) with ⟨hno, _⟩ | h
  · obtain ⟨c, hc, ht⟩ := hpres
    exact absurd ht (hno c hc)
  · exact h

/-! The probability map over a duplicate-free word list has one entry per
word. -/

theorem mapInsert_length_le (k : List Char) (v : String) :
    ∀ m : List (List Char × String), (mapInsert k v m).length ≤ m.length + 1
  | [] => by rw [mapInsert]; exact le_refl _
  | (k1, v1) :: rest => by
    rw [mapInsert]
    by_cases h1 : k = k1
    · rw [if_pos h1]
      simp
    · rw [if_neg h1]
      by_cases h2 : lexLt k k1
      · rw [if_pos h2]
        simp
      · rw [if_neg h2]
        have := mapInsert_length_le k v rest
        simp only [List.length_cons]
        omega

theorem probFold_length_le (env : Env) (leg : Bool) :
    ∀ (ws : List String) (m : List (List Char × String)),
      (ws.foldl (fun m w => mapInsert (radixOf env leg w) w m) m).length ≤
        m.length + ws.length
  | [], m => by simp
  | w :: rest, m => by
    rw [List.foldl_cons]
    have h1 := probFold_length_le env leg rest (mapInsert (radixOf env leg w) w m)
    have h2 := mapInsert_length_le (radixOf env leg w) w m
    simp only [List.length_cons]
    omega

theorem probMapOf_length (env : Env) (leg : Bool) (ws : List String)
    (hnd : (ws.map fun w => radixOf env leg w).Nodup) :
    (probMapOf env leg ws).length = ws.length := by
  refine le_antisymm ?_ ?_
  · have := probFold_length_le env leg ws []
    simpa [probMapOf] using this
  · have hws : ws.Nodup := List.Nodup.of_map _ hnd
    have hinj : Function.Injective (fun w => (radixOf env leg w, w)) := by
      intro a b hab
      exact congrArg Prod.snd hab
    have hLnd : (ws.map fun w => (radixOf env leg w, w)).Nodup :=
      List.Nodup.map hinj hws
    have hsub : (ws.map fun w => (radixOf env leg w, w)) ⊆ probMapOf env leg ws := by
      intro x hx
      obtain ⟨w, hw, rfl⟩ := List.mem_map.1 hx
      exact probMapOf_mem env leg ws hnd w hw
    have := (List.Nodup.subperm hLnd hsub).length_le
    simpa using this

/-- The window slice at `min0 = max0 = 0` with an unconstrained strict
upper bound (`hi = size - 1`): the result is exactly the group of words
tied for the highest combination count. -/
theorem slice_top_group (env : Env) (leg : Bool) (R : List String)
    (hnd : (R.map strUpper).Nodup)
    (hcombos : ∀ w, env.numCombinations w < 10 ^ 9)
    (lo hi : Int) (min0 max0 : Nat)
    (pm : List (List Char × String)) (keys : List (List Char)) (values : List String)
    (hpm : pm = probMapOf env leg R)
    (hkeys : keys = pm.map Prod.fst) (hvalues : values = pm.map Prod.snd)
    (minW maxW : Nat)
    (hminW : minW = widenMin keys lo ((keys.getD min0 []).take 9) min0)
    (hmaxW : maxW = widenMax keys hi ((keys.getD max0 []).take 9) max0)
    (res : List String)
    (hres : res = listMid values (minW : Int) ((maxW : Int) - (minW : Int) + 1))
    (hmin0 : min0 = 0) (hmax0 : max0 = 0)
    (hhi : hi = (keys.length : Int) - 1)
    (hRne : R ≠ []) :
    ∀ w, w ∈ res ↔
      (w ∈ R ∧ ∀ w2 ∈ R,
        env.numCombinations (strUpper w2) ≤ env.numCombinations (strUpper w)) := by
  subst hmin0 hmax0
  have hminW0 : minW = 0 := by rw [hminW, widenMin]
  subst hminW0
  have hsorpm := probMapOf_sorted env leg R
  rw [← hpm] at hsorpm
  have hsork : keys.Pairwise (fun a b => lexLt a b = true) := by
    rw [hkeys, List.pairwise_map]
    exact hsorpm
  have hklen : keys.length = pm.length := by rw [hkeys]; simp
  have hvlen : values.length = pm.length := by rw [hvalues]; simp
  have hpmlen : pm.length = R.length := by
    rw [hpm]
    exact probMapOf_length env leg R (radix_nodup env leg R hnd)
  have hRlen : 1 ≤ R.length := by
    rcases R with _ | ⟨r, rs⟩
    · exact absurd rfl hRne
    · simp
  have hpmpos : 0 < pm.length := by omega
  have hkey_get : ∀ (j : Nat) (hj : j < pm.length),
      keys.getD j [] = (pm.get ⟨j, hj⟩).1 := by
    subst hkeys
    intro j hj
    rw [getD_get (pm.map Prod.fst) j (by simpa using hj)]
    simp
  have hval_get : ∀ (j : Nat) (hj : j < pm.length),
      values.get ⟨j, by omega⟩ = (pm.get ⟨j, hj⟩).2 := by
    subst hvalues
    intro j hj
    simp
  have hpfx : ∀ (j : Nat) (hj : j < pm.length),
      (keys.getD j []).take 9 = pad9 (radixC env (pm.get ⟨j, hj⟩).2) := by
    intro j hj
    rw [hkey_get j hj,
      probMapOf_entry env leg R (pm.get ⟨j, hj⟩) (hpm ▸ pm.get_mem _ _),
      radixOf_take9]
  -- adjacent entries have non-increasing combination counts
  have hcmp : ∀ (i j : Nat) (hi2 : i < pm.length) (hj2 : j < pm.length), i < j →
      env.numCombinations (strUpper (pm.get ⟨j, hj2⟩).2) ≤
        env.numCombinations (strUpper (pm.get ⟨i, hi2⟩).2) := by
    intro i j hi2 hj2 hij
    have hlt := (List.pairwise_iff_get.1 hsorpm) ⟨i, hi2⟩ ⟨j, hj2⟩ hij
    rw [probMapOf_entry env leg R (pm.get ⟨i, hi2⟩) (hpm ▸ pm.get_mem _ _),
      probMapOf_entry env leg R (pm.get ⟨j, hj2⟩) (hpm ▸ pm.get_mem _ _)] at hlt
    rcases (radixOf_lt_iff env leg _ _ (hcombos _) (hcombos _)).1 hlt with h | ⟨h, _⟩
    · omega
    · omega
  have hvalR : ∀ (j : Nat) (hj : j < pm.length), (pm.get ⟨j, hj⟩).2 ∈ R := by
    intro j hj
    have := probMapOf_val env leg R (pm.get ⟨j, hj⟩) (hpm ▸ pm.get_mem _ _)
    exact this
  have hpos : ∀ w' ∈ R, ∃ (j2 : Nat) (hj2 : j2 < pm.length),
      pm.get ⟨j2, hj2⟩ = (radixOf env leg w', w') := by
    intro w' hw'
    have hmem2 : (radixOf env leg w', w') ∈ pm := by
      rw [hpm]
      exact probMapOf_mem env leg R (radix_nodup env leg R hnd) w' hw'
    obtain ⟨⟨j2, hj2⟩, hg2⟩ := List.mem_iff_get.1 hmem2
    exact ⟨j2, hj2, hg2⟩
  -- widen facts at max0 = 0
  obtain ⟨hx1, hx2, hx3, hx4⟩ := widenMax_spec keys hi ((keys.getD 0 []).take 9) 0 rfl
  rw [← hmaxW] at hx1 hx2 hx3 hx4
  have hmaxWlt : maxW < keys.length := hx4 (by omega)
  -- the slice in drop/take form
  have hres2 : res = (values.drop 0).take (maxW + 1) := by
    rw [hres, listMid]
    rw [if_neg (by push_neg; constructor <;> omega)]
    have h1 : ((0 : Nat) : Int).toNat = 0 := by omega
    have h2 : (((maxW : Int)) - (((0 : Nat) : Int)) + 1).toNat = maxW + 1 := by omega
    rw [h1, h2]
  have hmem : ∀ x, x ∈ res ↔
      ∃ j : Nat, j ≤ maxW ∧ ∃ hj : j < values.length, values.get ⟨j, hj⟩ = x := by
    intro x
    rw [hres2, slice_mem_iff]
    constructor
    · rintro ⟨j, _, hjb, hj, hg⟩
      exact ⟨j, by omega, hj, hg⟩
    · rintro ⟨j, hjb, hj, hg⟩
      exact ⟨j, by omega, by omega, hj, hg⟩
  intro w
  constructor
  · intro hw
    obtain ⟨j, hjmax, hj, hg⟩ := (hmem w).1 hw
    have hjpm : j < pm.length := by omega
    have hwval : (pm.get ⟨j, hjpm⟩).2 = w := by rw [← hval_get j hjpm]; exact hg
    refine ⟨hwval ▸ hvalR j hjpm, ?_⟩
    intro w2 hw2
    obtain ⟨j2, hj2, hg2⟩ := hpos w2 hw2
    have hw2val : (pm.get ⟨j2, hj2⟩).2 = w2 := by rw [hg2]
    rcases lt_trichotomy j j2 with hlt | heq | hgt
    · have := hcmp j j2 hjpm hj2 hlt
      rw [hwval, hw2val] at this
      exact this
    · subst heq
      rw [← hwval, hw2val]
    · -- j2 < j: both prefixes equal the top prefix, so the counts tie
      have hpj : (keys.getD j []).take 9 = (keys.getD 0 []).take 9 :=
        keys_prefix_sandwich keys hsork 0 j maxW (by omega) hjmax hmaxWlt hx2.symm
      have hpj2 : (keys.getD j2 []).take 9 = (keys.getD 0 []).take 9 :=
        keys_prefix_sandwich keys hsork 0 j2 maxW (by omega) (by omega) hmaxWlt
          hx2.symm
      have hpeq : pad9 (radixC env w2) = pad9 (radixC env w) := by
        rw [← hwval, ← hw2val, ← hpfx j hjpm, ← hpfx j2 hj2, hpj, hpj2]
      have hrceq : radixC env w2 = radixC env w :=
        pad9_inj (radixC_lt env w2) (radixC_lt env w) hpeq
      unfold radixC at hrceq
      have := hcombos (strUpper w)
      have := hcombos (strUpper w2)
      omega
  · rintro ⟨hwR, hmaxi⟩
    obtain ⟨j2, hj2, hg2⟩ := hpos w hwR
    have hwval : (pm.get ⟨j2, hj2⟩).2 = w := by rw [hg2]
    have hv0R : (pm.get ⟨0, hpmpos⟩).2 ∈ R := hvalR 0 hpmpos
    have hc1 : env.numCombinations (strUpper (pm.get ⟨0, hpmpos⟩).2) ≤
        env.numCombinations (strUpper w) := hmaxi _ hv0R
    have hceq : env.numCombinations (strUpper w) =
        env.numCombinations (strUpper (pm.get ⟨0, hpmpos⟩).2) := by
      rcases Nat.eq_zero_or_pos j2 with h0 | h0
      · subst h0
        rw [hwval]
      · have := hcmp 0 j2 hpmpos hj2 h0
        rw [hwval] at this
        omega
    have hpj2 : (keys.getD j2 []).take 9 = (keys.getD 0 []).take 9 := by
      rw [hpfx j2 hj2, hpfx 0 hpmpos, hwval]
      have h1 : radixC env w = radixC env (pm.get ⟨0, hpmpos⟩).2 := by
        unfold radixC
        omega
      rw [h1]
    have hj2max : j2 ≤ maxW := by
      by_contra hcon
      push_neg at hcon
      rcases hx3 with h | h | h
      · omega
      · rw [hhi] at h
        omega
      · have : (keys.getD (maxW + 1) []).take 9 = (keys.getD 0 []).take 9 :=
          keys_prefix_sandwich keys hsork 0 (maxW + 1) j2 (by omega) (by omega)
            (by omega) hpj2.symm
        exact h this
    refine (hmem w).2 ⟨j2, hj2max, by omega, ?_⟩
    rw [hval_get j2 hj2, hwval]

/-- When every `LimitByProbabilityOrder` condition is lax, the strict
range stays at its defaults, the widening is never truncated, and the
returned window never splits a combination-count tie. -/
theorem applyPost_lax_tie (env : Env) (spec : SearchSpec) (wordList R : List String)
    (hR : R = wordList.filter fun w => matchesConditions env w spec.conditions)
    (hnd : (R.map strUpper).Nodup)
    (hcombos : ∀ w, env.numCombinations w < 10 ^ 9)
    (hsize : R.length ≤ 999999)
    (hlax : ∀ c ∈ spec.conditions, c.type = CondType.LimitByProbabilityOrder →
      c.boolValue = true) :
    ∀ w1 ∈ applyPostConditions env spec wordList, ∀ w2 ∈ R,
      env.numCombinations (strUpper w2) = env.numCombinations (strUpper w1) →
      w2 ∈ applyPostConditions env spec wordList := by
  intro w1 hw1 w2 hw2 hcomb
  obtain ⟨hrmin, hrmax⟩ := probLimitScan_strict spec.conditions hlax
  simp only [applyPostConditions] at hw1 ⊢
  rw [← hR] at hw1 ⊢
  by_cases hp : (probLimitScan spec.conditions).present = true
  · rw [if_pos hp] at hw1 ⊢
    by_cases hcl : ((probLimitScan spec.conditions).rmin > (R.length : Int) ∨
        (probLimitScan spec.conditions).rminLax > (R.length : Int))
    · rw [if_pos hcl] at hw1
      exact absurd hw1 (List.not_mem_nil w1)
    · rw [if_neg hcl] at hw1 ⊢
      push_neg at hcl
      obtain ⟨hcl1, hcl2⟩ := hcl
      by_cases hRe : R = []
      · subst hRe
        simp [probMapOf, listMid] at hw1
      · have hRlen : 1 ≤ R.length := by
          rcases R with _ | ⟨r, rs⟩
          · exact absurd rfl hRe
          · simp
        have hpmlen : (probMapOf env (probLimitScan spec.conditions).legacy R).length
            = R.length :=
          probMapOf_length env _ R (radix_nodup env _ R hnd)
        refine slice_tie_closed env ((probLimitScan spec.conditions).legacy) R hnd
          hcombos _ _ _ _ _ _ _ rfl rfl rfl _ _ rfl rfl _ rfl ?_ ?_ ?_ ?_
          w1 hw1 w2 hw2 hcomb
        · rw [hrmin]
          norm_num
        · rw [List.length_map, hpmlen, hrmax]
          split_ifs <;> omega
        · rw [List.length_map, hpmlen, hrmin]
          split_ifs <;> omega
        · rw [List.length_map, hpmlen, hrmax]
          split_ifs <;> omega
  · rw [if_neg hp] at hw1 ⊢
    exact hw2

/-- A lone lax `[1,1]` probability limit (possibly repeated) returns the
group of words tied for the highest combination count. -/
theorem applyPost_lax11_top (env : Env) (spec : SearchSpec) (wordList R : List String)
    (hR : R = wordList.filter fun w => matchesConditions env w spec.conditions)
    (hnd : (R.map strUpper).Nodup)
    (hcombos : ∀ w, env.numCombinations w < 10 ^ 9)
    (hsize : R.length ≤ 999999)
    (h11 : ∀ c ∈ spec.conditions, c.type = CondType.LimitByProbabilityOrder →
      c.boolValue = true ∧ c.minValue = 1 ∧ c.maxValue = 1)
    (hpres : ∃ c ∈ spec.conditions, c.type = CondType.LimitByProbabilityOrder)
    (hRne : R ≠ []) :
    ∀ w, w ∈ applyPostConditions env spec wordList ↔
      (w ∈ R ∧ ∀ w2 ∈ R,
        env.numCombinations (strUpper w2) ≤ env.numCombinations (strUpper w)) := by
  intro w
  have hlax : ∀ c ∈ spec.conditions, c.type = CondType.LimitByProbabilityOrder →
      c.boolValue = true := fun c hc ht => (h11 c hc ht).1
  obtain ⟨hrmin, hrmax⟩ := probLimitScan_strict spec.conditions hlax
  obtain ⟨hminLax, hmaxLax⟩ := probLimitScan_lax11 spec.conditions h11 hpres
  have hRlen : 1 ≤ R.length := by
    rcases R with _ | ⟨r, rs⟩
    · exact absurd rfl hRne
    · simp
  have hp : (probLimitScan spec.conditions).present = true := by
    rw [probLimitScan_present]
    obtain ⟨c, hc, ht⟩ := hpres
    exact List.any_eq_true.2 ⟨c, hc, decide_eq_true ht⟩
  have hcl : ¬((probLimitScan spec.conditions).rmin > (R.length : Int) ∨
      (probLimitScan spec.conditions).rminLax > (R.length : Int)) := by
    intro h
    rcases h with h | h
    · rw [hrmin] at h
      omega
    · rw [hminLax] at h
      omega
  have hpmlen : (probMapOf env (probLimitScan spec.conditions).legacy R).length
      = R.length :=
    probMapOf_length env _ R (radix_nodup env _ R hnd)
  simp only [applyPostConditions]
  rw [← hR]
  rw [if_pos hp, if_neg hcl]
  refine slice_top_group env ((probLimitScan spec.conditions).legacy) R hnd
    hcombos _ _ _ _ _ _ _ rfl rfl rfl _ _ rfl rfl _ rfl ?_ ?_ ?_ hRne w
  · rw [hrmin, hminLax]
    decide
  · rw [hrmax, hmaxLax]
    split_ifs <;> omega
  · rw [List.length_map, hpmlen, hrmax]
    split_ifs <;> omega

/-- C3 (amended): the widening in `applyPostConditions` respects
combination-count ties only as far as the strict range allows; when every
`LimitByProbabilityOrder` condition is lax (the strict range keeps its
defaults), a word tied in combination count with any returned word is
returned too — ties are never split — and when moreover every such
condition is a lax `[1,1]` limit and at least one is present, the result
is exactly the set of surviving words tied for the highest combination
count (one word, or all the tied words together). -/
theorem prob_window_ties (env : Env) (spec : SearchSpec) (wordList R : List String)
    (hR : R = wordList.filter fun w => matchesConditions env w spec.conditions)
    (hnd : (R.map strUpper).Nodup)
    (hcombos : ∀ w, env.numCombinations w < 10 ^ 9)
    (hsize : R.length ≤ 999999)
    (hlax : ∀ c ∈ spec.conditions, c.type = CondType.LimitByProbabilityOrder →
      c.boolValue = true) :
    (∀ w1 ∈ applyPostConditions env spec wordList, ∀ w2 ∈ R,
        env.numCombinations (strUpper w2) = env.numCombinations (strUpper w1) →
        w2 ∈ applyPostConditions env spec wordList) ∧
    ((∀ c ∈ spec.conditions, c.type = CondType.LimitByProbabilityOrder →
        c.minValue = 1 ∧ c.maxValue = 1) →
      (∃ c ∈ spec.conditions, c.type = CondType.LimitByProbabilityOrder) →
      R ≠ [] →
      ∀ w, w ∈ applyPostConditions env spec wordList ↔
        (w ∈ R ∧ ∀ w2 ∈ R,
          env.numCombinations (strUpper w2) ≤ env.numCombinations (strUpper w))) :=
  ⟨applyPost_lax_tie env spec wordList R hR hnd hcombos hsize hlax,
   fun h11 hpres hRne =>
     applyPost_lax11_top env spec wordList R hR hnd hcombos hsize
       (fun c hc ht => ⟨hlax c hc ht, (h11 c hc ht).1, (h11 c hc ht).2⟩)
       hpres hRne⟩

/-- On two surviving words with equal combination counts, a lax `[1,1]`
probability limit keeps both: the tie at the window boundary is not
split. -/
theorem prob_window_ties_witness :
    ("AB" ∈ applyPostConditions envA specLimitLax11 ["AB", "BA"]) ∧
    ("BA" ∈ applyPostConditions envA specLimitLax11 ["AB", "BA"]) := by
  have h := prob_window_ties envA specLimitLax11 ["AB", "BA"] ["AB", "BA"]
    (by decide) (by decide)
    (by intro w; show (5 : Nat) < 10 ^ 9; norm_num) (by decide) (by decide)
  have h2 := h.2 (by decide) (by decide) (by decide)
  constructor
  · exact (h2 "AB").2 ⟨by decide, by decide⟩
  · exact (h2 "BA").2 ⟨by decide, by decide⟩

end Zyzzyva
